import Mathlib

attribute [local semireducible] Rat.add Rat.sub Rat.mul Rat.inv

set_option maxRecDepth 4096

/-
Verification of the geohash codec (`src/core.rs`).

Modelling choices:
- Rust `f64` values are modelled by `F`: either NaN or an exact rational.
  Every bound manipulated by the algorithms is a dyadic rational obtained
  from the literals 90/180 by halving, so at the depths exercised here the
  double-precision midpoint arithmetic of the source is exact and agrees
  with exact rational arithmetic; IEEE comparisons against NaN are all
  false, which `F.gtq` / `F.ltq` reproduce.
- Internal bound computations (never NaN, shown by construction) are done
  directly in `ℚ`; only the user-supplied coordinate handed to `encode`
  can be NaN, so only it carries type `F`.
- Hash strings are `List Char` (the character sequence of the Rust
  `String`).
-/

/-- A double-precision value: NaN, or an exactly represented rational. -/
inductive F where
  | nan : F
  | val (q : ℚ) : F
deriving DecidableEq

/-- IEEE `>` against a (finite) rational: false whenever the left side is NaN. -/
def F.gtq : F → ℚ → Bool
  | .nan, _ => false
  | .val v, q => decide (q < v)

/-- IEEE `<` against a (finite) rational: false whenever the left side is NaN. -/
def F.ltq : F → ℚ → Bool
  | .nan, _ => false
  | .val v, q => decide (v < q)

/-- `geo_types::Coordinate<T>`: a two-field value, `x` = longitude, `y` = latitude. -/
structure Coordinate (T : Type) where
  x : T
  y : T
deriving DecidableEq

/-- Modelled from the spec: `geo_types::Rect` (not in `src/`) is treated as an
inert data carrier holding a min corner and a max corner. -/
structure Rect where
  min : Coordinate ℚ
  max : Coordinate ℚ
deriving DecidableEq

/-- Modelled from the spec: the eight compass directions (`Direction`, not in `src/`). -/
inductive Direction where
  | N | NE | E | SE | S | SW | W | NW
deriving DecidableEq

/-- Modelled from the spec: `Direction::to_tuple` returns the unit sign vector
`(Δlat, Δlng)`: N=(1,0), NE=(1,1), E=(0,1), SE=(−1,1), S=(−1,0), SW=(−1,−1),
W=(0,−1), NW=(1,−1). -/
def Direction.to_tuple : Direction → ℚ × ℚ
  | .N => (1, 0)
  | .NE => (1, 1)
  | .E => (0, 1)
  | .SE => (-1, 1)
  | .S => (-1, 0)
  | .SW => (-1, -1)
  | .W => (0, -1)
  | .NW => (1, -1)

/-- Modelled from the spec: the eight named string fields of `Neighbors` (not in `src/`). -/
structure Neighbors where
  n : List Char
  ne : List Char
  e : List Char
  se : List Char
  s : List Char
  sw : List Char
  w : List Char
  nw : List Char
deriving DecidableEq

/-- `GeohashError` (declared outside `src/`; variants and payloads as used by
`core.rs` and described by the spec): a range error carrying the offending
coordinate, or an invalid-character error carrying the character. -/
inductive GeohashError where
  | InvalidCoordinateRange (c : Coordinate F) : GeohashError
  | InvalidHashCharacter (c : Char) : GeohashError
deriving DecidableEq

deriving instance DecidableEq for Except

/-- `BASE32_CODES` from `core.rs`. -/
def BASE32_CODES : List Char :=
  ['0', '1', '2', '3', '4', '5', '6', '7', '8', '9', 'b', 'c', 'd', 'e', 'f',
   'g', 'h', 'j', 'k', 'm', 'n', 'p', 'q', 'r', 's', 't', 'u', 'v', 'w', 'x',
   'y', 'z']

/-- The four mutable bounds of the encode / decode loops, in the declaration
order of `core.rs` (`max_lat`, `min_lat`, `max_lon`, `min_lon`). -/
structure BBox where
  maxLat : ℚ
  minLat : ℚ
  maxLon : ℚ
  minLon : ℚ
deriving DecidableEq

/-- One iteration of the inner `for _ in 0..5` loop body of `encode`: branch on
the parity of `bits_total`, compare the active coordinate component with the
midpoint of the active interval, and narrow one bound.  Returns the emitted bit
(the `+ 1usize` of the shifted accumulator) together with the updated bounds. -/
def encodeBit (c : Coordinate F) (bitsTotal : ℕ) (b : BBox) : ℕ × BBox :=
  if bitsTotal % 2 == 0 then
    let mid := (b.maxLon + b.minLon) / 2
    if c.x.gtq mid then (1, { b with minLon := mid })
    else (0, { b with maxLon := mid })
  else
    let mid := (b.maxLat + b.minLat) / 2
    if c.y.gtq mid then (1, { b with minLat := mid })
    else (0, { b with maxLat := mid })

/-- The inner `for _ in 0..5` loop of `encode`, with `k` iterations left:
accumulates `hash_value` as `hash_value << 1 | bit` and threads the bounds
and the running `bits_total`. -/
def encodeStep (c : Coordinate F) : ℕ → ℕ → BBox → ℕ → ℕ × BBox
  | 0, _, b, hv => (hv, b)
  | k + 1, bitsTotal, b, hv =>
    let r := encodeBit c bitsTotal b
    encodeStep c k (bitsTotal + 1) r.2 (hv * 2 + r.1)

/-- The outer `while out.len() < len` loop of `encode`: each iteration folds 5
bits into `hash_value`, appends `BASE32_CODES[hash_value]`, and resets the
accumulator (but not the bounds or the bit parity).  Returns the produced
characters together with the final loop state (the bounds). -/
def encodeLoop (c : Coordinate F) : ℕ → ℕ → BBox → List Char × BBox
  | 0, _, b => ([], b)
  | n + 1, bitsTotal, b =>
    let r := encodeStep c 5 bitsTotal b 0
    let rest := encodeLoop c n (bitsTotal + 5) r.2
    (BASE32_CODES.getD r.1 '?' :: rest.1, rest.2)

/-- `encode` from `core.rs`: validate the coordinate against the initial bounds
(`min_lon = -180`, `max_lon = 180`, `min_lat = -90`, `max_lat = 90`), then run
the bit-interleaving loop starting at `bits_total = 0`. -/
def encode (c : Coordinate F) (len : ℕ) : Except GeohashError (List Char) :=
  if c.x.ltq (-180) || c.x.gtq 180 || c.y.ltq (-90) || c.y.gtq 90 then
    .error (.InvalidCoordinateRange c)
  else
    .ok (encodeLoop c len 0 ⟨90, -90, 180, -180⟩).1

/-- `hash_value_of_char` from `core.rs`: ordinal range checks on the Unicode
scalar value of the character. -/
def hash_value_of_char (c : Char) : Except GeohashError ℕ :=
  let ord := c.toNat
  if 48 ≤ ord ∧ ord ≤ 57 then .ok (ord - 48)
  else if 98 ≤ ord ∧ ord ≤ 104 then .ok (ord - 88)
  else if 106 ≤ ord ∧ ord ≤ 107 then .ok (ord - 89)
  else if 109 ≤ ord ∧ ord ≤ 110 then .ok (ord - 90)
  else if 112 ≤ ord ∧ ord ≤ 122 then .ok (ord - 91)
  else .error (.InvalidHashCharacter c)

/-- One iteration of the inner `for bs in 0..5` loop body of `decode_bbox`:
narrow one bound of the active axis according to the current bit. -/
def decodeBit (bit : ℕ) (isLon : Bool) (b : BBox) : BBox :=
  if isLon then
    let mid := (b.maxLon + b.minLon) / 2
    if bit == 1 then { b with minLon := mid } else { b with maxLon := mid }
  else
    let mid := (b.maxLat + b.minLat) / 2
    if bit == 1 then { b with minLat := mid } else { b with maxLat := mid }

/-- The inner `for bs in 0..5` loop of `decode_bbox`, with `k` bits left: the
current bit is `(hash_value >> (k - 1)) & 1` (for `k` bits left, `bs = 5 - k`
and `4 - bs = k - 1`), and `is_lon` flips after every bit. -/
def decodeCharAux (hashValue : ℕ) : ℕ → Bool → BBox → Bool × BBox
  | 0, isLon, b => (isLon, b)
  | k + 1, isLon, b =>
    let bit := (hashValue >>> k) &&& 1
    decodeCharAux hashValue k (!isLon) (decodeBit bit isLon b)

/-- The outer character loop of `decode_bbox`: look each character up with
`hash_value_of_char` (propagating its error) and process its 5 bits. -/
def decodeLoop : List Char → Bool → BBox → Except GeohashError (Bool × BBox)
  | [], isLon, b => .ok (isLon, b)
  | ch :: rest, isLon, b =>
    match hash_value_of_char ch with
    | .error e => .error e
    | .ok hv =>
      let r := decodeCharAux hv 5 isLon b
      decodeLoop rest r.1 r.2

/-- `decode_bbox` from `core.rs`: run the character loop from the full globe
with `is_lon = true`, and package the final bounds as a rectangle. -/
def decode_bbox (hash : List Char) : Except GeohashError Rect :=
  match decodeLoop hash true ⟨90, -90, 180, -180⟩ with
  | .error e => .error e
  | .ok r => .ok ⟨⟨r.2.minLon, r.2.minLat⟩, ⟨r.2.maxLon, r.2.maxLat⟩⟩

/-- `decode` from `core.rs`: the center of the bounding box, plus half-width
(longitude error) and half-height (latitude error). -/
def decode (hash : List Char) : Except GeohashError (Coordinate ℚ × ℚ × ℚ) :=
  match decode_bbox hash with
  | .error e => .error e
  | .ok rect =>
    .ok (⟨(rect.min.x + rect.max.x) / 2, (rect.min.y + rect.max.y) / 2⟩,
         (rect.max.x - rect.min.x) / 2,
         (rect.max.y - rect.min.y) / 2)

/-- `neighbor` from `core.rs`: decode, step the center by twice the absolute
per-axis error in the direction of the sign vector, and re-encode at the
original length. -/
def neighbor (hash : List Char) (direction : Direction) :
    Except GeohashError (List Char) :=
  match decode hash with
  | .error e => .error e
  | .ok (coord, lon_err, lat_err) =>
    let d := direction.to_tuple
    encode ⟨.val (coord.x + 2 * |lon_err| * d.2), .val (coord.y + 2 * |lat_err| * d.1)⟩
      hash.length

/-- `neighbors` from `core.rs`: the eight fields computed in the source order
`sw, s, se, w, e, nw, n, ne`, each `?` short-circuiting on the first error
(written as the nested matches the `?` operator desugars to). -/
def neighbors (hash : List Char) : Except GeohashError Neighbors :=
  match neighbor hash .SW with
  | .error er => .error er
  | .ok sw =>
    match neighbor hash .S with
    | .error er => .error er
    | .ok s =>
      match neighbor hash .SE with
      | .error er => .error er
      | .ok se =>
        match neighbor hash .W with
        | .error er => .error er
        | .ok w =>
          match neighbor hash .E with
          | .error er => .error er
          | .ok e =>
            match neighbor hash .NW with
            | .error er => .error er
            | .ok nw =>
              match neighbor hash .N with
              | .error er => .error er
              | .ok n =>
                match neighbor hash .NE with
                | .error er => .error er
                | .ok ne => .ok ⟨n, ne, e, se, s, sw, w, nw⟩

/-!
### Double-precision model

The definitions above compute midpoints in exact rational arithmetic, which
coincides with the double precision of the source only while per-axis
subdivision depth stays below the 53-bit mantissa (hash lengths up to 17).
The following definitions model the f64 rounding of the source explicitly:
round to nearest with ties to even at 53 significant bits and an unbounded
exponent, which is exactly IEEE double precision on the normal range the
algorithms traverse (no overflow, no subnormals).  Division by 2 of a double
is exact away from the subnormal range and is therefore not rounded.
-/

/-- Fuel-bounded floor of the base-2 logarithm (the fuel decreases while the
argument halves; returns 0 for arguments below 2). -/
def natLog2F : ℕ → ℕ → ℕ
  | 0, _ => 0
  | fuel + 1, n => if 2 ≤ n then natLog2F fuel (n / 2) + 1 else 0

/-- Floor of the base-2 logarithm, adequate for arguments below `2 ^ 2048`. -/
def natLog2 (n : ℕ) : ℕ := natLog2F 2048 n

/-- Floor of the base-2 logarithm of `|q|` for nonzero `q`. -/
def qlog2 (q : ℚ) : ℤ :=
  let k : ℤ := (natLog2 q.num.natAbs : ℤ) - (natLog2 q.den : ℤ)
  if |q| < 2 ^ k then k - 1 else k

/-- Round a rational to the nearest integer, ties to even. -/
def roundNearestEven (x : ℚ) : ℤ :=
  let f := ⌊x⌋
  let r := x - f
  if r < 1 / 2 then f
  else if 1 / 2 < r then f + 1
  else if f % 2 = 0 then f else f + 1

/-- Round a rational to the nearest double-precision value: 53-bit mantissa,
round to nearest, ties to even, unbounded exponent. -/
def round53 (q : ℚ) : ℚ :=
  if q = 0 then 0
  else
    let scale : ℤ := 52 - qlog2 q
    (roundNearestEven (q * 2 ^ scale) : ℚ) / 2 ^ scale

/-- f64 addition: the exact sum rounded to double precision. -/
def fadd (a b : ℚ) : ℚ := round53 (a + b)

/-- f64 subtraction: the exact difference rounded to double precision. -/
def fsub (a b : ℚ) : ℚ := round53 (a - b)

/-- `encodeBit` with the double-precision midpoint of the source:
`(max + min) / 2f64` is a rounded addition followed by an exact halving. -/
def encodeBit64 (c : Coordinate F) (bitsTotal : ℕ) (b : BBox) : ℕ × BBox :=
  if bitsTotal % 2 == 0 then
    let mid := fadd b.maxLon b.minLon / 2
    if c.x.gtq mid then (1, { b with minLon := mid })
    else (0, { b with maxLon := mid })
  else
    let mid := fadd b.maxLat b.minLat / 2
    if c.y.gtq mid then (1, { b with minLat := mid })
    else (0, { b with maxLat := mid })

/-- The inner encode loop over `encodeBit64`. -/
def encodeStep64 (c : Coordinate F) : ℕ → ℕ → BBox → ℕ → ℕ × BBox
  | 0, _, b, hv => (hv, b)
  | k + 1, bitsTotal, b, hv =>
    let r := encodeBit64 c bitsTotal b
    encodeStep64 c k (bitsTotal + 1) r.2 (hv * 2 + r.1)

/-- The outer encode loop over `encodeStep64`. -/
def encodeLoop64 (c : Coordinate F) : ℕ → ℕ → BBox → List Char × BBox
  | 0, _, b => ([], b)
  | n + 1, bitsTotal, b =>
    let r := encodeStep64 c 5 bitsTotal b 0
    let rest := encodeLoop64 c n (bitsTotal + 5) r.2
    (BASE32_CODES.getD r.1 '?' :: rest.1, rest.2)

/-- `encode` from `core.rs` with double-precision midpoints. -/
def encode64 (c : Coordinate F) (len : ℕ) : Except GeohashError (List Char) :=
  if c.x.ltq (-180) || c.x.gtq 180 || c.y.ltq (-90) || c.y.gtq 90 then
    .error (.InvalidCoordinateRange c)
  else
    .ok (encodeLoop64 c len 0 ⟨90, -90, 180, -180⟩).1

/-- `decodeBit` with the double-precision midpoint of the source. -/
def decodeBit64 (bit : ℕ) (isLon : Bool) (b : BBox) : BBox :=
  if isLon then
    let mid := fadd b.maxLon b.minLon / 2
    if bit == 1 then { b with minLon := mid } else { b with maxLon := mid }
  else
    let mid := fadd b.maxLat b.minLat / 2
    if bit == 1 then { b with minLat := mid } else { b with maxLat := mid }

/-- The inner decode loop over `decodeBit64`. -/
def decodeCharAux64 (hashValue : ℕ) : ℕ → Bool → BBox → Bool × BBox
  | 0, isLon, b => (isLon, b)
  | k + 1, isLon, b =>
    let bit := (hashValue >>> k) &&& 1
    decodeCharAux64 hashValue k (!isLon) (decodeBit64 bit isLon b)

/-- The outer decode loop over `decodeCharAux64`. -/
def decodeLoop64 : List Char → Bool → BBox → Except GeohashError (Bool × BBox)
  | [], isLon, b => .ok (isLon, b)
  | ch :: rest, isLon, b =>
    match hash_value_of_char ch with
    | .error e => .error e
    | .ok hv =>
      let r := decodeCharAux64 hv 5 isLon b
      decodeLoop64 rest r.1 r.2

/-- `decode_bbox` from `core.rs` with double-precision midpoints. -/
def decode64_bbox (hash : List Char) : Except GeohashError Rect :=
  match decodeLoop64 hash true ⟨90, -90, 180, -180⟩ with
  | .error e => .error e
  | .ok r => .ok ⟨⟨r.2.minLon, r.2.minLat⟩, ⟨r.2.maxLon, r.2.maxLat⟩⟩

/-- `decode` from `core.rs` with double-precision arithmetic: the center sum
and the width differences are rounded additions and subtractions followed by
exact halvings. -/
def decode64 (hash : List Char) : Except GeohashError (Coordinate ℚ × ℚ × ℚ) :=
  match decode64_bbox hash with
  | .error e => .error e
  | .ok rect =>
    .ok (⟨fadd rect.min.x rect.max.x / 2, fadd rect.min.y rect.max.y / 2⟩,
         fsub rect.max.x rect.min.x / 2,
         fsub rect.max.y rect.min.y / 2)

/-- `bits_total` in the source is an `i8`; with release-build wrapping
arithmetic its value after `k` increments from 0 is
`((k + 128) mod 256) - 128`, and the parity test `bits_total % 2 == 0` uses
the truncated remainder of the two-complement value.  The theorem
`bits_total_i8_parity` below shows this test agrees with the unbounded
counter used in `encodeStep`, so the `ℕ` model is faithful to the wrapping
`i8` for every length. -/
def bits_total_i8 (k : ℕ) : ℤ := ((k : ℤ) + 128) % 256 - 128

/-! ### Structural lemmas about the encoder -/

theorem parity_flip (bt : ℕ) : (((bt + 1) % 2 == 0) : Bool) = !(bt % 2 == 0) := by
  rcases Nat.mod_two_eq_zero_or_one bt with h | h
  · have h1 : (bt + 1) % 2 = 1 := by omega
    rw [h, h1]
    rfl
  · have h1 : (bt + 1) % 2 = 0 := by omega
    rw [h, h1]
    rfl

theorem encodeBit_bit_le (c : Coordinate F) (bt : ℕ) (b : BBox) :
    (encodeBit c bt b).1 ≤ 1 := by
  unfold encodeBit
  split
  · dsimp only
    split <;> simp
  · dsimp only
    split <;> simp

theorem encodeStep_hv (c : Coordinate F) :
    ∀ (k bt : ℕ) (b : BBox) (hv : ℕ),
      (encodeStep c k bt b hv).1 = hv * 2 ^ k + (encodeStep c k bt b 0).1 ∧
      (encodeStep c k bt b hv).2 = (encodeStep c k bt b 0).2 := by
  intro k
  induction k with
  | zero => intro bt b hv; simp [encodeStep]
  | succ k ih =>
    intro bt b hv
    simp only [encodeStep]
    obtain ⟨h1, h2⟩ := ih (bt + 1) (encodeBit c bt b).2 (hv * 2 + (encodeBit c bt b).1)
    obtain ⟨h3, h4⟩ := ih (bt + 1) (encodeBit c bt b).2 (0 * 2 + (encodeBit c bt b).1)
    refine ⟨?_, by rw [h2, h4]⟩
    rw [h1, h3]
    ring

theorem encodeStep_hv_lt (c : Coordinate F) :
    ∀ (k bt : ℕ) (b : BBox), (encodeStep c k bt b 0).1 < 2 ^ k := by
  intro k
  induction k with
  | zero => intro bt b; simp [encodeStep]
  | succ k ih =>
    intro bt b
    simp only [encodeStep]
    obtain ⟨h1, -⟩ := encodeStep_hv c k (bt + 1) (encodeBit c bt b).2
      (0 * 2 + (encodeBit c bt b).1)
    rw [h1]
    have hb := encodeBit_bit_le c bt b
    have hz := ih (bt + 1) (encodeBit c bt b).2
    have : (0 * 2 + (encodeBit c bt b).1) * 2 ^ k ≤ 2 ^ k := by
      simpa using Nat.mul_le_mul_right (2 ^ k) hb
    calc (0 * 2 + (encodeBit c bt b).1) * 2 ^ k +
          (encodeStep c k (bt + 1) (encodeBit c bt b).2 0).1
        < (0 * 2 + (encodeBit c bt b).1) * 2 ^ k + 2 ^ k := by omega
      _ ≤ 2 ^ k + 2 ^ k := by omega
      _ = 2 ^ (k + 1) := by ring

theorem encodeLoop_length (c : Coordinate F) :
    ∀ (n bt : ℕ) (b : BBox), (encodeLoop c n bt b).1.length = n := by
  intro n
  induction n with
  | zero => intro bt b; simp [encodeLoop]
  | succ n ih => intro bt b; simp [encodeLoop, ih]

theorem getD_mem_codes : ∀ hv : ℕ, hv < 32 → BASE32_CODES.getD hv '?' ∈ BASE32_CODES := by
  decide

theorem encodeLoop_mem (c : Coordinate F) :
    ∀ (n bt : ℕ) (b : BBox) (ch : Char),
      ch ∈ (encodeLoop c n bt b).1 → ch ∈ BASE32_CODES := by
  intro n
  induction n with
  | zero => intro bt b ch h; simp [encodeLoop] at h
  | succ n ih =>
    intro bt b ch h
    simp only [encodeLoop, List.mem_cons] at h
    rcases h with h | h
    · rw [h]
      exact getD_mem_codes _ (encodeStep_hv_lt c 5 bt b)
    · exact ih (bt + 5) _ ch h

theorem encode_ok_parts (qx qy : ℚ) (n : ℕ)
    (hx1 : -180 ≤ qx) (hx2 : qx ≤ 180) (hy1 : -90 ≤ qy) (hy2 : qy ≤ 90) :
    encode ⟨.val qx, .val qy⟩ n =
      .ok (encodeLoop ⟨.val qx, .val qy⟩ n 0 ⟨90, -90, 180, -180⟩).1 := by
  unfold encode
  have h1 : F.ltq (.val qx) (-180) = false := by
    simp [F.ltq]; linarith
  have h2 : F.gtq (.val qx) 180 = false := by
    simp [F.gtq]; linarith
  have h3 : F.ltq (.val qy) (-90) = false := by
    simp [F.ltq]; linarith
  have h4 : F.gtq (.val qy) 90 = false := by
    simp [F.gtq]; linarith
  rw [h1, h2, h3, h4]
  simp

theorem encode_ok_length (c : Coordinate F) (len : ℕ) (out : List Char)
    (h : encode c len = .ok out) : out.length = len := by
  unfold encode at h
  split at h
  · exact absurd h (by simp)
  · simp only [Except.ok.injEq] at h
    rw [← h]
    exact encodeLoop_length c len 0 _

/-! ### The encoder keeps an in-range coordinate inside its shrinking bounds -/

/-- The coordinate `(qx, qy)` lies inside the bounds `b`. -/
def InBB (qx qy : ℚ) (b : BBox) : Prop :=
  b.minLon ≤ qx ∧ qx ≤ b.maxLon ∧ b.minLat ≤ qy ∧ qy ≤ b.maxLat

theorem encodeBit_inBB (qx qy : ℚ) (bt : ℕ) (b : BBox) (h : InBB qx qy b) :
    InBB qx qy (encodeBit ⟨.val qx, .val qy⟩ bt b).2 := by
  obtain ⟨h1, h2, h3, h4⟩ := h
  unfold encodeBit
  split
  · dsimp only
    split
    case isTrue hc =>
      simp only [F.gtq, decide_eq_true_eq] at hc
      exact ⟨le_of_lt hc, h2, h3, h4⟩
    case isFalse hc =>
      simp only [F.gtq, decide_eq_true_eq] at hc
      exact ⟨h1, le_of_not_lt hc, h3, h4⟩
  · dsimp only
    split
    case isTrue hc =>
      simp only [F.gtq, decide_eq_true_eq] at hc
      exact ⟨h1, h2, le_of_lt hc, h4⟩
    case isFalse hc =>
      simp only [F.gtq, decide_eq_true_eq] at hc
      exact ⟨h1, h2, h3, le_of_not_lt hc⟩

theorem encodeStep_inBB (qx qy : ℚ) :
    ∀ (k bt : ℕ) (b : BBox) (hv : ℕ), InBB qx qy b →
      InBB qx qy (encodeStep ⟨.val qx, .val qy⟩ k bt b hv).2 := by
  intro k
  induction k with
  | zero => intro bt b hv h; simpa [encodeStep] using h
  | succ k ih =>
    intro bt b hv h
    simp only [encodeStep]
    exact ih (bt + 1) _ _ (encodeBit_inBB qx qy bt b h)

theorem encodeLoop_inBB (qx qy : ℚ) :
    ∀ (n bt : ℕ) (b : BBox), InBB qx qy b →
      InBB qx qy (encodeLoop ⟨.val qx, .val qy⟩ n bt b).2 := by
  intro n
  induction n with
  | zero => intro bt b h; simpa [encodeLoop] using h
  | succ n ih =>
    intro bt b h
    simp only [encodeLoop]
    exact ih (bt + 5) _ (encodeStep_inBB qx qy 5 bt b 0 h)

/-! ### Round trip: the decoder replays exactly the subdivisions of the encoder -/

theorem hvoc_getD : ∀ hv : ℕ, hv < 32 →
    hash_value_of_char (BASE32_CODES.getD hv '?') = .ok hv := by
  decide

theorem decodeBit_encodeBit (c : Coordinate F) (bt : ℕ) (b : BBox) :
    decodeBit (encodeBit c bt b).1 (bt % 2 == 0) b = (encodeBit c bt b).2 := by
  unfold encodeBit decodeBit
  cases hp : (bt % 2 == 0 : Bool)
  · simp only [hp, Bool.false_eq_true, if_false]
    split <;> simp
  · simp only [hp, if_true]
    split <;> simp

theorem rt_char (c : Coordinate F) :
    ∀ (k bt : ℕ) (b : BBox) (a : ℕ),
      decodeCharAux (a * 2 ^ k + (encodeStep c k bt b 0).1) k (bt % 2 == 0) b =
        ((bt + k) % 2 == 0, (encodeStep c k bt b 0).2) := by
  intro k
  induction k with
  | zero => intro bt b a; simp [decodeCharAux, encodeStep]
  | succ k ih =>
    intro bt b a
    have hstep : encodeStep c (k + 1) bt b 0 =
        encodeStep c k (bt + 1) (encodeBit c bt b).2 (0 * 2 + (encodeBit c bt b).1) := rfl
    obtain ⟨hv_eq, hb_eq⟩ :=
      encodeStep_hv c k (bt + 1) (encodeBit c bt b).2 (0 * 2 + (encodeBit c bt b).1)
    have hE0 : (encodeStep c k (bt + 1) (encodeBit c bt b).2 0).1 < 2 ^ k :=
      encodeStep_hv_lt c k (bt + 1) (encodeBit c bt b).2
    have hbit : (encodeBit c bt b).1 ≤ 1 := encodeBit_bit_le c bt b
    have hv_total : a * 2 ^ (k + 1) + (encodeStep c (k + 1) bt b 0).1 =
        (a * 2 + (encodeBit c bt b).1) * 2 ^ k +
          (encodeStep c k (bt + 1) (encodeBit c bt b).2 0).1 := by
      rw [hstep, hv_eq]
      ring
    have hextract : ((a * 2 ^ (k + 1) + (encodeStep c (k + 1) bt b 0).1) >>> k) &&& 1 =
        (encodeBit c bt b).1 := by
      rw [hv_total, Nat.shiftRight_eq_div_pow, Nat.and_one_is_mod]
      rw [Nat.add_comm ((a * 2 + (encodeBit c bt b).1) * 2 ^ k) _,
        Nat.add_mul_div_right _ _ (Nat.pos_pow_of_pos k (by norm_num)),
        Nat.div_eq_of_lt hE0]
      omega
    show decodeCharAux _ k _ (decodeBit _ _ b) = _
    rw [hextract, decodeBit_encodeBit c bt b]
    have hIH := ih (bt + 1) (encodeBit c bt b).2 (a * 2 + (encodeBit c bt b).1)
    rw [parity_flip] at hIH
    have harg : a * 2 ^ (k + 1) + (encodeStep c (k + 1) bt b 0).1 =
        (a * 2 + (encodeBit c bt b).1) * 2 ^ k +
          (encodeStep c k (bt + 1) (encodeBit c bt b).2 0).1 := hv_total
    rw [harg]
    rw [hIH]
    have hpar : bt + 1 + k = bt + (k + 1) := by omega
    rw [hpar, hstep, hb_eq]

theorem rt_loop (c : Coordinate F) :
    ∀ (n bt : ℕ) (b : BBox),
      decodeLoop (encodeLoop c n bt b).1 (bt % 2 == 0) b =
        .ok (((bt + 5 * n) % 2 == 0), (encodeLoop c n bt b).2) := by
  intro n
  induction n with
  | zero => intro bt b; simp [encodeLoop, decodeLoop]
  | succ n ih =>
    intro bt b
    simp only [encodeLoop]
    have hvlt : (encodeStep c 5 bt b 0).1 < 32 := encodeStep_hv_lt c 5 bt b
    simp only [decodeLoop, hvoc_getD _ hvlt]
    have h5 := rt_char c 5 bt b 0
    simp only [zero_mul, zero_add] at h5
    rw [h5]
    rw [ih (bt + 5) (encodeStep c 5 bt b 0).2]
    have hpar : bt + 5 + 5 * n = bt + 5 * (n + 1) := by ring
    rw [hpar]

/-! ### Decoder invariants: bounds narrow, never cross -/

/-- `inner` is a sub-box of `outer`. -/
def Inside (inner outer : BBox) : Prop :=
  outer.minLon ≤ inner.minLon ∧ inner.maxLon ≤ outer.maxLon ∧
  outer.minLat ≤ inner.minLat ∧ inner.maxLat ≤ outer.maxLat

/-- The bounds are strictly ordered on both axes. -/
def Proper (b : BBox) : Prop := b.minLon < b.maxLon ∧ b.minLat < b.maxLat

theorem Inside.refl (b : BBox) : Inside b b :=
  ⟨le_refl _, le_refl _, le_refl _, le_refl _⟩

theorem Inside.trans {a b c : BBox} (h1 : Inside a b) (h2 : Inside b c) : Inside a c :=
  ⟨le_trans h2.1 h1.1, le_trans h1.2.1 h2.2.1,
   le_trans h2.2.2.1 h1.2.2.1, le_trans h1.2.2.2 h2.2.2.2⟩

theorem decodeBit_spec (bit : ℕ) (p : Bool) (b : BBox) (hb : Proper b) :
    Proper (decodeBit bit p b) ∧ Inside (decodeBit bit p b) b ∧
    (p = true →
      (decodeBit bit p b).maxLon - (decodeBit bit p b).minLon = (b.maxLon - b.minLon) / 2 ∧
      (decodeBit bit p b).maxLat = b.maxLat ∧ (decodeBit bit p b).minLat = b.minLat) ∧
    (p = false →
      (decodeBit bit p b).maxLat - (decodeBit bit p b).minLat = (b.maxLat - b.minLat) / 2 ∧
      (decodeBit bit p b).maxLon = b.maxLon ∧ (decodeBit bit p b).minLon = b.minLon) := by
  obtain ⟨hlon, hlat⟩ := hb
  unfold decodeBit
  cases p
  · simp only [Bool.false_eq_true, if_false]
    split
    · refine ⟨⟨by linarith, by linarith⟩, ⟨le_refl _, le_refl _, by linarith, le_refl _⟩,
        by simp, fun _ => ⟨by ring, rfl, rfl⟩⟩
    · refine ⟨⟨by linarith, by linarith⟩, ⟨le_refl _, le_refl _, le_refl _, by linarith⟩,
        by simp, fun _ => ⟨by ring, rfl, rfl⟩⟩
  · simp only [if_true]
    split
    · refine ⟨⟨by linarith, by linarith⟩, ⟨by linarith, le_refl _, le_refl _, le_refl _⟩,
        fun _ => ⟨by ring, rfl, rfl⟩, by simp⟩
    · refine ⟨⟨by linarith, by linarith⟩, ⟨le_refl _, by linarith, le_refl _, le_refl _⟩,
        fun _ => ⟨by ring, rfl, rfl⟩, by simp⟩

/-- Number of longitude bits among `k` successive bits whose first bit has
axis-flag `p` (`p = true` meaning longitude). -/
def lonSteps (k : ℕ) (p : Bool) : ℕ := if p then (k + 1) / 2 else k / 2

theorem parity_step (k : ℕ) (p : Bool) :
    (((k % 2 == 0) : Bool) == !p) = (((k + 1) % 2 == 0) == p) := by
  rcases Nat.mod_two_eq_zero_or_one k with h | h
  · have h1 : (k + 1) % 2 = 1 := by omega
    rw [h, h1]
    cases p <;> rfl
  · have h1 : (k + 1) % 2 = 0 := by omega
    rw [h, h1]
    cases p <;> rfl

theorem lonSteps_true (k : ℕ) : lonSteps k true = (k + 1) / 2 := by simp [lonSteps]

theorem lonSteps_false (k : ℕ) : lonSteps k false = k / 2 := by simp [lonSteps]

theorem decodeCharAux_spec (hv : ℕ) :
    ∀ (k : ℕ) (p : Bool) (b : BBox), Proper b →
      Proper (decodeCharAux hv k p b).2 ∧
      Inside (decodeCharAux hv k p b).2 b ∧
      (decodeCharAux hv k p b).1 = (((k % 2 == 0) : Bool) == p) ∧
      (decodeCharAux hv k p b).2.maxLon - (decodeCharAux hv k p b).2.minLon =
        (b.maxLon - b.minLon) / 2 ^ lonSteps k p ∧
      (decodeCharAux hv k p b).2.maxLat - (decodeCharAux hv k p b).2.minLat =
        (b.maxLat - b.minLat) / 2 ^ (k - lonSteps k p) := by
  intro k
  induction k with
  | zero =>
    intro p b hb
    refine ⟨hb, Inside.refl b, by cases p <;> rfl,
      by simp [decodeCharAux, lonSteps], by simp [decodeCharAux, lonSteps]⟩
  | succ k ih =>
    intro p b hb
    obtain ⟨hprop1, hins1, hlonT, hlatT⟩ := decodeBit_spec ((hv >>> k) &&& 1) p b hb
    have hstep : decodeCharAux hv (k + 1) p b =
        decodeCharAux hv k (!p) (decodeBit ((hv >>> k) &&& 1) p b) := rfl
    obtain ⟨hprop2, hins2, hpar2, hlon2, hlat2⟩ := ih (!p) _ hprop1
    rw [hstep]
    refine ⟨hprop2, hins2.trans hins1, ?_, ?_, ?_⟩
    · rw [hpar2]
      exact parity_step k p
    · cases p
      · obtain ⟨hw, hlonmax, hlonmin⟩ := hlatT rfl
        simp only [Bool.not_false] at hlon2 ⊢
        rw [hlon2, hlonmax, hlonmin, lonSteps_true, lonSteps_false]
      · obtain ⟨hw, hlatmax, hlatmin⟩ := hlonT rfl
        simp only [Bool.not_true] at hlon2 ⊢
        rw [hlon2, hw, lonSteps_false, lonSteps_true, div_div]
        have he : (k + 1 + 1) / 2 = k / 2 + 1 := by omega
        rw [he, pow_succ]
        ring
    · cases p
      · obtain ⟨hw, hlonmax, hlonmin⟩ := hlatT rfl
        simp only [Bool.not_false] at hlat2 ⊢
        rw [hlat2, hw, lonSteps_true, lonSteps_false, div_div]
        have he : k + 1 - (k + 1) / 2 = (k - (k + 1) / 2) + 1 := by omega
        rw [he, pow_succ]
        ring
      · obtain ⟨hw, hlatmax, hlatmin⟩ := hlonT rfl
        simp only [Bool.not_true] at hlat2 ⊢
        rw [hlat2, hlatmax, hlatmin, lonSteps_false, lonSteps_true]
        have he : k + 1 - (k + 1 + 1) / 2 = k - k / 2 := by omega
        rw [he]

/-- Number of longitude bits among the `5 * m` bits of `m` characters whose
first bit has axis-flag `p`. -/
def lonBitsN (m : ℕ) (p : Bool) : ℕ := if p then (5 * m + 1) / 2 else (5 * m) / 2

theorem lonBitsN_true (m : ℕ) : lonBitsN m true = (5 * m + 1) / 2 := rfl

theorem lonBitsN_false (m : ℕ) : lonBitsN m false = 5 * m / 2 := rfl

theorem decodeLoop_spec :
    ∀ (hash : List Char) (p : Bool) (b : BBox) (res : Bool × BBox),
      decodeLoop hash p b = .ok res → Proper b →
      Proper res.2 ∧ Inside res.2 b ∧
      res.2.maxLon - res.2.minLon =
        (b.maxLon - b.minLon) / 2 ^ lonBitsN hash.length p ∧
      res.2.maxLat - res.2.minLat =
        (b.maxLat - b.minLat) / 2 ^ (5 * hash.length - lonBitsN hash.length p) := by
  intro hash
  induction hash with
  | nil =>
    intro p b res hok hb
    simp only [decodeLoop, Except.ok.injEq] at hok
    rw [← hok]
    refine ⟨hb, Inside.refl b, ?_, ?_⟩
    · cases p <;> simp [lonBitsN]
    · cases p <;> simp [lonBitsN]
  | cons ch rest ih =>
    intro p b res hok hb
    cases hch : hash_value_of_char ch with
    | error e =>
      simp only [decodeLoop, hch] at hok
      exact absurd hok (by simp)
    | ok hv =>
      simp only [decodeLoop, hch] at hok
      obtain ⟨hp1, hi1, hpar1, hlon1, hlat1⟩ := decodeCharAux_spec hv 5 p b hb
      have hq : (decodeCharAux hv 5 p b).1 = !p := by
        rw [hpar1]
        cases p <;> rfl
      rw [hq] at hok
      obtain ⟨hp2, hi2, hlon2, hlat2⟩ := ih (!p) _ res hok hp1
      refine ⟨hp2, hi2.trans hi1, ?_, ?_⟩
      · have he : lonSteps 5 p + lonBitsN rest.length (!p) =
            lonBitsN (ch :: rest).length p := by
          cases p <;> simp [lonSteps, lonBitsN, List.length_cons] <;> omega
        rw [hlon2, hlon1, div_div, ← pow_add, he]
      · have he : (5 - lonSteps 5 p) + (5 * rest.length - lonBitsN rest.length (!p)) =
            5 * (ch :: rest).length - lonBitsN (ch :: rest).length p := by
          cases p <;> simp [lonSteps, lonBitsN, List.length_cons] <;> omega
        rw [hlat2, hlat1, div_div, ← pow_add, he]

theorem hvoc_isOk_of_mem : ∀ ch ∈ BASE32_CODES, (hash_value_of_char ch).isOk = true := by
  decide

theorem decodeLoop_ok :
    ∀ (hash : List Char) (p : Bool) (b : BBox), (∀ ch ∈ hash, ch ∈ BASE32_CODES) →
      ∃ res, decodeLoop hash p b = .ok res := by
  intro hash
  induction hash with
  | nil => intro p b _; exact ⟨(p, b), rfl⟩
  | cons ch rest ih =>
    intro p b hmem
    have hch := hvoc_isOk_of_mem ch (hmem ch (by simp))
    cases hgot : hash_value_of_char ch with
    | error e => rw [hgot] at hch; simp [Except.isOk, Except.toBool] at hch
    | ok hv =>
      obtain ⟨res, hres⟩ := ih (decodeCharAux hv 5 p b).1 (decodeCharAux hv 5 p b).2
        (fun c hc => hmem c (by simp [hc]))
      exact ⟨res, by simp only [decodeLoop, hgot]; exact hres⟩

theorem decodeLoop_append :
    ∀ (h1 h2 : List Char) (p : Bool) (b : BBox),
      decodeLoop (h1 ++ h2) p b =
        match decodeLoop h1 p b with
        | .error e => .error e
        | .ok r => decodeLoop h2 r.1 r.2 := by
  intro h1
  induction h1 with
  | nil => intro h2 p b; rfl
  | cons ch rest ih =>
    intro h2 p b
    cases hch : hash_value_of_char ch with
    | error e => simp only [List.cons_append, decodeLoop, hch]
    | ok hv => simp only [List.cons_append, decodeLoop, hch]; exact ih h2 _ _

/-! ### The inverse alphabet lookup -/

theorem char_toNat_inj {a b : Char} (h : a.toNat = b.toNat) : a = b := by
  rw [← Char.ofNat_toNat a, ← Char.ofNat_toNat b, h]

theorem mem_codes_iff (ch : Char) :
    ch ∈ BASE32_CODES ↔
      (48 ≤ ch.toNat ∧ ch.toNat ≤ 57) ∨ (98 ≤ ch.toNat ∧ ch.toNat ≤ 104) ∨
      (106 ≤ ch.toNat ∧ ch.toNat ≤ 107) ∨ (109 ≤ ch.toNat ∧ ch.toNat ≤ 110) ∨
      (112 ≤ ch.toNat ∧ ch.toNat ≤ 122) := by
  constructor
  · intro h
    fin_cases h <;> decide
  · intro h
    rw [← Char.ofNat_toNat ch]
    obtain ⟨m, hm⟩ : ∃ m, ch.toNat = m := ⟨_, rfl⟩
    rw [hm] at h ⊢
    rcases h with ⟨h1, h2⟩ | ⟨h1, h2⟩ | ⟨h1, h2⟩ | ⟨h1, h2⟩ | ⟨h1, h2⟩ <;>
      interval_cases m <;> decide

theorem hvoc_not_mem (ch : Char) (h : ch ∉ BASE32_CODES) :
    hash_value_of_char ch = .error (.InvalidHashCharacter ch) := by
  rw [mem_codes_iff] at h
  simp only [hash_value_of_char]
  rw [if_neg (by tauto), if_neg (by tauto), if_neg (by tauto), if_neg (by tauto),
    if_neg (by tauto)]

/-! ### Encode range validation -/

theorem encode_error_iff (qx qy : ℚ) (n : ℕ) :
    encode ⟨.val qx, .val qy⟩ n =
        .error (.InvalidCoordinateRange ⟨.val qx, .val qy⟩) ↔
      (qx < -180 ∨ 180 < qx ∨ qy < -90 ∨ 90 < qy) := by
  have hcond : ((F.val qx).ltq (-180) || (F.val qx).gtq 180 ||
      (F.val qy).ltq (-90) || (F.val qy).gtq 90) = true ↔
      (qx < -180 ∨ 180 < qx ∨ qy < -90 ∨ 90 < qy) := by
    simp [F.ltq, F.gtq]
    tauto
  unfold encode
  split
  case isTrue h => simpa using hcond.mp h
  case isFalse h =>
    constructor
    · intro hh
      exact absurd hh (by simp)
    · intro hh
      exact absurd (hcond.mpr hh) h

/-! ### NaN coordinates slip through the range check and emit only zero bits -/

theorem encodeStep_nan : ∀ (k bt : ℕ) (b : BBox) (hv : ℕ),
    (encodeStep ⟨.nan, .nan⟩ k bt b hv).1 = hv * 2 ^ k := by
  intro k
  induction k with
  | zero => intro bt b hv; simp [encodeStep]
  | succ k ih =>
    intro bt b hv
    have hbit : (encodeBit ⟨.nan, .nan⟩ bt b).1 = 0 := by
      unfold encodeBit
      split <;> simp [F.gtq]
    simp only [encodeStep]
    rw [ih, hbit]
    ring

theorem encodeLoop_nan : ∀ (n bt : ℕ) (b : BBox),
    (encodeLoop ⟨.nan, .nan⟩ n bt b).1 = List.replicate n '0' := by
  intro n
  induction n with
  | zero => intro bt b; simp [encodeLoop]
  | succ n ih =>
    intro bt b
    simp only [encodeLoop]
    rw [List.replicate_succ]
    have h0 : (encodeStep ⟨.nan, .nan⟩ 5 bt b 0).1 = 0 := by
      rw [encodeStep_nan]
      ring
    rw [h0, ih]
    rfl

/-! ### Claim theorems -/

/-- Claim C1: `encode` applied to the coordinate `(-120.6623, 35.3003)` returns
exactly `"9q60y"` at length 5 and exactly `"9q60y60rhs"` at length 10. -/
theorem C1_encode_fixtures :
    encode ⟨.val (-1206623 / 10000), .val (353003 / 10000)⟩ 5 = .ok ("9q60y".toList) ∧
    encode ⟨.val (-1206623 / 10000), .val (353003 / 10000)⟩ 10 =
      .ok ("9q60y60rhs".toList) := by
  constructor <;> decide

/-- Claim C2: for every coordinate with longitude in `[-180, 180]`, latitude in
`[-90, 90]` and every length `n` in `[1, 20]`, `encode` succeeds and returns a
string of exactly `n` characters, each drawn from the 32-symbol alphabet. -/
theorem C2_encode_valid (qx qy : ℚ) (n : ℕ)
    (hx1 : -180 ≤ qx) (hx2 : qx ≤ 180) (hy1 : -90 ≤ qy) (hy2 : qy ≤ 90)
    (hn1 : 1 ≤ n) (hn2 : n ≤ 20) :
    ∃ out, encode ⟨.val qx, .val qy⟩ n = .ok out ∧ out.length = n ∧
      ∀ ch ∈ out, ch ∈ BASE32_CODES := by
  refine ⟨_, encode_ok_parts qx qy n hx1 hx2 hy1 hy2, encodeLoop_length _ n 0 _, ?_⟩
  intro ch hch
  exact encodeLoop_mem _ n 0 _ ch hch

/-- Witness for C2 at the concrete input `(0, 0)` with `n = 5`. -/
theorem C2_encode_valid_witness :
    ∃ out, encode ⟨.val 0, .val 0⟩ 5 = .ok out ∧ out.length = 5 ∧
      ∀ ch ∈ out, ch ∈ BASE32_CODES :=
  C2_encode_valid 0 0 5 (by norm_num) (by norm_num) (by norm_num) (by norm_num)
    (by norm_num) (by norm_num)

/-- Claim C3: `encode` returns the range error carrying the offending coordinate
exactly when the longitude lies outside `[-180, 180]` or the latitude outside
`[-90, 90]` (boundaries accepted); an out-of-range coordinate never produces a
string; and a neighbor probe that re-encodes an out-of-range coordinate produces
the same range error, carrying the probe coordinate. -/
theorem C3_range_error :
    (∀ (qx qy : ℚ) (n : ℕ),
      (encode ⟨.val qx, .val qy⟩ n =
          .error (.InvalidCoordinateRange ⟨.val qx, .val qy⟩) ↔
        (qx < -180 ∨ 180 < qx ∨ qy < -90 ∨ 90 < qy)) ∧
      ((qx < -180 ∨ 180 < qx ∨ qy < -90 ∨ 90 < qy) →
        ∀ out, encode ⟨.val qx, .val qy⟩ n ≠ .ok out) ∧
      (¬(qx < -180 ∨ 180 < qx ∨ qy < -90 ∨ 90 < qy) →
        ∃ out, encode ⟨.val qx, .val qy⟩ n = .ok out)) ∧
    (∀ (hash : List Char) (d : Direction) (coord : Coordinate ℚ) (le la px py : ℚ),
      decode hash = .ok (coord, le, la) →
      px = coord.x + 2 * |le| * d.to_tuple.2 →
      py = coord.y + 2 * |la| * d.to_tuple.1 →
      (px < -180 ∨ 180 < px ∨ py < -90 ∨ 90 < py) →
      neighbor hash d = .error (.InvalidCoordinateRange ⟨.val px, .val py⟩)) := by
  constructor
  · intro qx qy n
    refine ⟨encode_error_iff qx qy n, fun h out hok => ?_, fun h => ?_⟩
    · rw [(encode_error_iff qx qy n).mpr h] at hok
      exact absurd hok (by simp)
    · push_neg at h
      obtain ⟨g1, g2, g3, g4⟩ := h
      exact ⟨_, encode_ok_parts qx qy n g1 g2 g3 g4⟩
  · intro hash d coord le la px py hdec hpx hpy hrange
    unfold neighbor
    rw [hdec]
    dsimp only
    rw [← hpx, ← hpy]
    exact (encode_error_iff px py hash.length).mpr hrange

/-- Witness for C3: the south-east probe from the corner cell `"z"` lands at
longitude `202.5`, outside the valid range, and fails with the range error. -/
theorem C3_range_error_witness :
    neighbor ("z".toList) .SE =
      .error (.InvalidCoordinateRange ⟨.val (405 / 2), .val (45 / 2)⟩) :=
  C3_range_error.2 ("z".toList) .SE ⟨315 / 2, 135 / 2⟩ (45 / 2) (45 / 2) (405 / 2)
    (45 / 2) (by decide)
    (by rw [show |(45 : ℚ) / 2| = 45 / 2 from abs_of_pos (by norm_num)]
        norm_num [Direction.to_tuple])
    (by rw [show |(45 : ℚ) / 2| = 45 / 2 from abs_of_pos (by norm_num)]
        norm_num [Direction.to_tuple])
    (by norm_num)

/-- Claim C10: the empty hash string decodes to the full-globe rectangle, and
`decode` of the empty string returns center `(0, 0)` with errors `(180, 90)`. -/
theorem C10_empty_hash :
    decode_bbox [] = .ok ⟨⟨-180, -90⟩, ⟨180, 90⟩⟩ ∧
    decode [] = .ok (⟨0, 0⟩, 180, 90) := by
  constructor <;> decide

/-- Claim C4: the character-to-value lookup is the exact inverse of the alphabet
table on all 32 entries, and fails with an invalid-character error carrying the
character on every character outside the alphabet. -/
theorem C4_char_lookup :
    (∀ i : Fin BASE32_CODES.length,
      hash_value_of_char (BASE32_CODES.get i) = .ok i.val) ∧
    (∀ ch : Char, ch ∉ BASE32_CODES →
      hash_value_of_char ch = .error (.InvalidHashCharacter ch)) := by
  constructor
  · decide
  · exact hvoc_not_mem

/-- Witness for C4 at the concrete excluded character `a`. -/
theorem C4_char_lookup_witness :
    hash_value_of_char 'a' = .error (.InvalidHashCharacter 'a') :=
  C4_char_lookup.2 'a' (by decide)

/-- Claim C5: for every hash string over the alphabet, `decode_bbox` succeeds
and returns a rectangle whose min corner is below its max corner on both axes. -/
theorem C5_decode_bbox_valid (hash : List Char)
    (hmem : ∀ ch ∈ hash, ch ∈ BASE32_CODES) :
    ∃ r, decode_bbox hash = .ok r ∧ r.min.x ≤ r.max.x ∧ r.min.y ≤ r.max.y := by
  obtain ⟨res, hres⟩ := decodeLoop_ok hash true ⟨90, -90, 180, -180⟩ hmem
  obtain ⟨hp, -, -, -⟩ := decodeLoop_spec hash true _ res hres ⟨by norm_num, by norm_num⟩
  refine ⟨⟨⟨res.2.minLon, res.2.minLat⟩, ⟨res.2.maxLon, res.2.maxLat⟩⟩, ?_,
    le_of_lt hp.1, le_of_lt hp.2⟩
  simp only [decode_bbox, hres]

/-- Witness for C5 at the concrete hash `"9q60y"`. -/
theorem C5_decode_bbox_valid_witness :
    ∃ r, decode_bbox ("9q60y".toList) = .ok r ∧ r.min.x ≤ r.max.x ∧ r.min.y ≤ r.max.y :=
  C5_decode_bbox_valid ("9q60y".toList) (by decide)

/-- Exact-rational nesting: with exact midpoints, appending one alphabet
character to a valid hash string strictly narrows the decoded rectangle.  The
double-precision program satisfies this only while its midpoints are still
exact; see `C6_nesting_f64` and `C6_f64_counterexample`. -/
theorem nesting_exact (hash : List Char) (ch : Char)
    (hmem : ∀ c ∈ hash, c ∈ BASE32_CODES) (hch : ch ∈ BASE32_CODES) :
    ∃ r r2, decode_bbox hash = .ok r ∧ decode_bbox (hash ++ [ch]) = .ok r2 ∧
      r.min.x ≤ r2.min.x ∧ r2.max.x ≤ r.max.x ∧
      r.min.y ≤ r2.min.y ∧ r2.max.y ≤ r.max.y ∧
      r2.max.x - r2.min.x < r.max.x - r.min.x ∧
      r2.max.y - r2.min.y < r.max.y - r.min.y := by
  obtain ⟨⟨p, B⟩, hres⟩ := decodeLoop_ok hash true ⟨90, -90, 180, -180⟩ hmem
  obtain ⟨hp, -, -, -⟩ :=
    decodeLoop_spec hash true _ (p, B) hres ⟨by norm_num, by norm_num⟩
  have hpB : Proper B := hp
  cases hgot : hash_value_of_char ch with
  | error e =>
    have hok := hvoc_isOk_of_mem ch hch
    rw [hgot] at hok
    simp [Except.isOk, Except.toBool] at hok
  | ok hv =>
    obtain ⟨hp1, hi1, -, hlon1, hlat1⟩ := decodeCharAux_spec hv 5 p B hpB
    have happ : decodeLoop (hash ++ [ch]) true ⟨90, -90, 180, -180⟩ =
        .ok (decodeCharAux hv 5 p B) := by
      rw [decodeLoop_append, hres]
      simp only [decodeLoop, hgot]
    refine ⟨⟨⟨B.minLon, B.minLat⟩, ⟨B.maxLon, B.maxLat⟩⟩,
      ⟨⟨(decodeCharAux hv 5 p B).2.minLon, (decodeCharAux hv 5 p B).2.minLat⟩,
       ⟨(decodeCharAux hv 5 p B).2.maxLon, (decodeCharAux hv 5 p B).2.maxLat⟩⟩,
      ?_, ?_, hi1.1, hi1.2.1, hi1.2.2.1, hi1.2.2.2, ?_, ?_⟩
    · simp only [decode_bbox, hres]
    · simp only [decode_bbox, happ]
    · dsimp only
      rw [hlon1]
      have hw : 0 < B.maxLon - B.minLon := sub_pos.mpr hpB.1
      cases p
      · rw [lonSteps_false]
        norm_num
        linarith
      · rw [lonSteps_true]
        norm_num
        linarith
    · dsimp only
      rw [hlat1]
      have hw : 0 < B.maxLat - B.minLat := sub_pos.mpr hpB.2
      cases p
      · rw [lonSteps_false]
        norm_num
        linarith
      · rw [lonSteps_true]
        norm_num
        linarith

/-! ### Round trip -/

theorem decode_encode_spec (qx qy : ℚ) (n : ℕ)
    (hx1 : -180 ≤ qx) (hx2 : qx ≤ 180) (hy1 : -90 ≤ qy) (hy2 : qy ≤ 90) :
    ∃ out c le la,
      encode ⟨.val qx, .val qy⟩ n = .ok out ∧
      decode out = .ok (c, le, la) ∧
      |c.x - qx| ≤ le ∧ |c.y - qy| ≤ la ∧
      le = 180 / 2 ^ ((5 * n + 1) / 2) ∧ la = 90 / 2 ^ (5 * n / 2) := by
  have henc := encode_ok_parts qx qy n hx1 hx2 hy1 hy2
  have hrt := rt_loop ⟨.val qx, .val qy⟩ n 0 ⟨90, -90, 180, -180⟩
  rw [show ((0 % 2 == 0 : Bool)) = true from rfl] at hrt
  have hbbox : decode_bbox (encodeLoop ⟨.val qx, .val qy⟩ n 0 ⟨90, -90, 180, -180⟩).1 =
      .ok ⟨⟨(encodeLoop ⟨.val qx, .val qy⟩ n 0 ⟨90, -90, 180, -180⟩).2.minLon,
            (encodeLoop ⟨.val qx, .val qy⟩ n 0 ⟨90, -90, 180, -180⟩).2.minLat⟩,
           ⟨(encodeLoop ⟨.val qx, .val qy⟩ n 0 ⟨90, -90, 180, -180⟩).2.maxLon,
            (encodeLoop ⟨.val qx, .val qy⟩ n 0 ⟨90, -90, 180, -180⟩).2.maxLat⟩⟩ := by
    simp only [decode_bbox, hrt]
  have hdec : decode (encodeLoop ⟨.val qx, .val qy⟩ n 0 ⟨90, -90, 180, -180⟩).1 =
      .ok (⟨((encodeLoop ⟨.val qx, .val qy⟩ n 0 ⟨90, -90, 180, -180⟩).2.minLon +
             (encodeLoop ⟨.val qx, .val qy⟩ n 0 ⟨90, -90, 180, -180⟩).2.maxLon) / 2,
            ((encodeLoop ⟨.val qx, .val qy⟩ n 0 ⟨90, -90, 180, -180⟩).2.minLat +
             (encodeLoop ⟨.val qx, .val qy⟩ n 0 ⟨90, -90, 180, -180⟩).2.maxLat) / 2⟩,
           ((encodeLoop ⟨.val qx, .val qy⟩ n 0 ⟨90, -90, 180, -180⟩).2.maxLon -
            (encodeLoop ⟨.val qx, .val qy⟩ n 0 ⟨90, -90, 180, -180⟩).2.minLon) / 2,
           ((encodeLoop ⟨.val qx, .val qy⟩ n 0 ⟨90, -90, 180, -180⟩).2.maxLat -
            (encodeLoop ⟨.val qx, .val qy⟩ n 0 ⟨90, -90, 180, -180⟩).2.minLat) / 2) := by
    simp only [decode, hbbox]
  have hin : InBB qx qy (encodeLoop ⟨.val qx, .val qy⟩ n 0 ⟨90, -90, 180, -180⟩).2 :=
    encodeLoop_inBB qx qy n 0 ⟨90, -90, 180, -180⟩ ⟨hx1, hx2, hy1, hy2⟩
  have hlen : (encodeLoop ⟨.val qx, .val qy⟩ n 0 ⟨90, -90, 180, -180⟩).1.length = n :=
    encodeLoop_length _ n 0 _
  obtain ⟨-, -, hlonw, hlatw⟩ := decodeLoop_spec
    (encodeLoop ⟨.val qx, .val qy⟩ n 0 ⟨90, -90, 180, -180⟩).1 true ⟨90, -90, 180, -180⟩
    (((0 + 5 * n) % 2 == 0 : Bool), (encodeLoop ⟨.val qx, .val qy⟩ n 0 ⟨90, -90, 180, -180⟩).2)
    hrt ⟨by norm_num, by norm_num⟩
  rw [hlen] at hlonw hlatw
  refine ⟨_, _, _, _, henc, hdec, ?_, ?_, ?_, ?_⟩
  · obtain ⟨g1, g2, -, -⟩ := hin
    rw [abs_le]
    constructor <;> [linarith; linarith]
  · obtain ⟨-, -, g3, g4⟩ := hin
    rw [abs_le]
    constructor <;> [linarith; linarith]
  · show (_ - _) / 2 = _
    rw [hlonw]
    have hb : lonBitsN n true = (5 * n + 1) / 2 := by simp [lonBitsN]
    rw [hb]
    norm_num
    ring
  · show (_ - _) / 2 = _
    rw [hlatw]
    have hb : 5 * n - lonBitsN n true = 5 * n / 2 := by
      simp [lonBitsN]
      omega
    rw [hb]
    norm_num
    ring

/-- Exact-rational round trip: with exact midpoints, decoding the result of
`encode` succeeds, the center is within the per-axis error of the input, the
errors are the closed-form half-cell sizes, and both strictly shrink from `n`
to `n + 1`.  The double-precision program satisfies this only while its
midpoints are still exact; see `C7_round_trip_f64` and
`C7_f64_counterexample`. -/
theorem round_trip_exact (qx qy : ℚ) (n : ℕ)
    (hx1 : -180 ≤ qx) (hx2 : qx ≤ 180) (hy1 : -90 ≤ qy) (hy2 : qy ≤ 90) :
    ∃ out c le la,
      encode ⟨.val qx, .val qy⟩ n = .ok out ∧
      decode out = .ok (c, le, la) ∧
      |c.x - qx| ≤ le ∧ |c.y - qy| ≤ la ∧
      le = 180 / 2 ^ ((5 * n + 1) / 2) ∧ la = 90 / 2 ^ (5 * n / 2) ∧
      ∀ out2 c2 le2 la2,
        encode ⟨.val qx, .val qy⟩ (n + 1) = .ok out2 →
        decode out2 = .ok (c2, le2, la2) → le2 < le ∧ la2 < la := by
  obtain ⟨out, c, le, la, h1, h2, h3, h4, h5, h6⟩ :=
    decode_encode_spec qx qy n hx1 hx2 hy1 hy2
  refine ⟨out, c, le, la, h1, h2, h3, h4, h5, h6, ?_⟩
  intro out2 c2 le2 la2 henc2 hdec2
  obtain ⟨out2w, c2w, le2w, la2w, g1, g2, -, -, g5, g6⟩ :=
    decode_encode_spec qx qy (n + 1) hx1 hx2 hy1 hy2
  rw [henc2] at g1
  have hout : out2w = out2 := by
    simpa using g1.symm
  rw [hout, hdec2] at g2
  have hcomp : c2w = c2 ∧ le2w = le2 ∧ la2w = la2 := by
    simpa [Prod.ext_iff] using g2.symm
  obtain ⟨-, hle2, hla2⟩ := hcomp
  constructor
  · rw [← hle2, g5, h5]
    apply div_lt_div_of_pos_left (by norm_num) (by positivity)
    have hexp : (5 * n + 1) / 2 < (5 * (n + 1) + 1) / 2 := by omega
    exact pow_lt_pow_right₀ (by norm_num) hexp
  · rw [← hla2, g6, h6]
    apply div_lt_div_of_pos_left (by norm_num) (by positivity)
    have hexp : 5 * n / 2 < 5 * (n + 1) / 2 := by omega
    exact pow_lt_pow_right₀ (by norm_num) hexp

/-! ### The all-neighbors aggregator -/

theorem neighbor_ok_length (hash : List Char) (d : Direction) (s : List Char)
    (h : neighbor hash d = .ok s) : s.length = hash.length := by
  unfold neighbor at h
  cases hdec : decode hash with
  | error er => rw [hdec] at h; exact absurd h (by simp)
  | ok t =>
    obtain ⟨coord, le, la⟩ := t
    rw [hdec] at h
    exact encode_ok_length _ _ _ h

theorem neighbors_ok_all (hash : List Char) (rec : Neighbors)
    (h : neighbors hash = .ok rec) :
    neighbor hash .N = .ok rec.n ∧ neighbor hash .NE = .ok rec.ne ∧
    neighbor hash .E = .ok rec.e ∧ neighbor hash .SE = .ok rec.se ∧
    neighbor hash .S = .ok rec.s ∧ neighbor hash .SW = .ok rec.sw ∧
    neighbor hash .W = .ok rec.w ∧ neighbor hash .NW = .ok rec.nw := by
  unfold neighbors at h
  cases hsw : neighbor hash .SW with
  | error er => rw [hsw] at h; exact Except.noConfusion h
  | ok sw =>
  rw [hsw] at h
  cases hs : neighbor hash .S with
  | error er => rw [hs] at h; exact Except.noConfusion h
  | ok s =>
  rw [hs] at h
  cases hse : neighbor hash .SE with
  | error er => rw [hse] at h; exact Except.noConfusion h
  | ok se =>
  rw [hse] at h
  cases hw : neighbor hash .W with
  | error er => rw [hw] at h; exact Except.noConfusion h
  | ok w =>
  rw [hw] at h
  cases he : neighbor hash .E with
  | error er => rw [he] at h; exact Except.noConfusion h
  | ok e =>
  rw [he] at h
  cases hnw : neighbor hash .NW with
  | error er => rw [hnw] at h; exact Except.noConfusion h
  | ok nw =>
  rw [hnw] at h
  cases hn : neighbor hash .N with
  | error er => rw [hn] at h; exact Except.noConfusion h
  | ok n =>
  rw [hn] at h
  cases hne : neighbor hash .NE with
  | error er => rw [hne] at h; exact Except.noConfusion h
  | ok ne =>
  rw [hne] at h
  rw [Except.ok.injEq] at h
  rw [← h]
  exact ⟨rfl, rfl, rfl, rfl, rfl, rfl, rfl, rfl⟩

theorem neighbors_error_src (hash : List Char) (e2 : GeohashError)
    (h : neighbors hash = .error e2) : ∃ d2, neighbor hash d2 = .error e2 := by
  unfold neighbors at h
  cases hsw : neighbor hash .SW with
  | error er =>
    rw [hsw] at h
    rw [Except.error.injEq] at h
    exact ⟨.SW, h ▸ hsw⟩
  | ok sw =>
  rw [hsw] at h
  cases hs : neighbor hash .S with
  | error er =>
    rw [hs] at h
    rw [Except.error.injEq] at h
    exact ⟨.S, h ▸ hs⟩
  | ok s =>
  rw [hs] at h
  cases hse : neighbor hash .SE with
  | error er =>
    rw [hse] at h
    rw [Except.error.injEq] at h
    exact ⟨.SE, h ▸ hse⟩
  | ok se =>
  rw [hse] at h
  cases hw : neighbor hash .W with
  | error er =>
    rw [hw] at h
    rw [Except.error.injEq] at h
    exact ⟨.W, h ▸ hw⟩
  | ok w =>
  rw [hw] at h
  cases he : neighbor hash .E with
  | error er =>
    rw [he] at h
    rw [Except.error.injEq] at h
    exact ⟨.E, h ▸ he⟩
  | ok e =>
  rw [he] at h
  cases hnw : neighbor hash .NW with
  | error er =>
    rw [hnw] at h
    rw [Except.error.injEq] at h
    exact ⟨.NW, h ▸ hnw⟩
  | ok nw =>
  rw [hnw] at h
  cases hn : neighbor hash .N with
  | error er =>
    rw [hn] at h
    rw [Except.error.injEq] at h
    exact ⟨.N, h ▸ hn⟩
  | ok n =>
  rw [hn] at h
  cases hne : neighbor hash .NE with
  | error er =>
    rw [hne] at h
    rw [Except.error.injEq] at h
    exact ⟨.NE, h ▸ hne⟩
  | ok ne =>
  rw [hne] at h
  exact Except.noConfusion h

/-- Claim C8: `neighbors` succeeds exactly when all eight single-direction
neighbor computations succeed, in which case each record field equals the
corresponding neighbor and has the same length as the input; if any direction
fails, the whole call fails with an error produced by a failing direction, and
no record is returned. -/
theorem C8_neighbors (hash : List Char) :
    (∀ rec, neighbors hash = .ok rec →
      (neighbor hash .N = .ok rec.n ∧ neighbor hash .NE = .ok rec.ne ∧
       neighbor hash .E = .ok rec.e ∧ neighbor hash .SE = .ok rec.se ∧
       neighbor hash .S = .ok rec.s ∧ neighbor hash .SW = .ok rec.sw ∧
       neighbor hash .W = .ok rec.w ∧ neighbor hash .NW = .ok rec.nw) ∧
      (rec.n.length = hash.length ∧ rec.ne.length = hash.length ∧
       rec.e.length = hash.length ∧ rec.se.length = hash.length ∧
       rec.s.length = hash.length ∧ rec.sw.length = hash.length ∧
       rec.w.length = hash.length ∧ rec.nw.length = hash.length)) ∧
    ((∀ d, ∃ s, neighbor hash d = .ok s) → ∃ rec, neighbors hash = .ok rec) ∧
    (∀ d e0, neighbor hash d = .error e0 →
      ∃ e2, neighbors hash = .error e2 ∧ ∃ d2, neighbor hash d2 = .error e2) := by
  refine ⟨?_, ?_, ?_⟩
  · intro rec hok
    obtain ⟨hn, hne, he, hse, hs, hsw, hw, hnw⟩ := neighbors_ok_all hash rec hok
    exact ⟨⟨hn, hne, he, hse, hs, hsw, hw, hnw⟩,
      neighbor_ok_length hash _ _ hn, neighbor_ok_length hash _ _ hne,
      neighbor_ok_length hash _ _ he, neighbor_ok_length hash _ _ hse,
      neighbor_ok_length hash _ _ hs, neighbor_ok_length hash _ _ hsw,
      neighbor_ok_length hash _ _ hw, neighbor_ok_length hash _ _ hnw⟩
  · intro hall
    obtain ⟨sw, hsw⟩ := hall .SW
    obtain ⟨s, hs⟩ := hall .S
    obtain ⟨se, hse⟩ := hall .SE
    obtain ⟨w, hw⟩ := hall .W
    obtain ⟨e, he⟩ := hall .E
    obtain ⟨nw, hnw⟩ := hall .NW
    obtain ⟨n, hn⟩ := hall .N
    obtain ⟨ne, hne⟩ := hall .NE
    refine ⟨⟨n, ne, e, se, s, sw, w, nw⟩, ?_⟩
    unfold neighbors
    rw [hsw, hs, hse, hw, he, hnw, hn, hne]
  · intro d e0 hde
    cases hres : neighbors hash with
    | ok rec =>
      obtain ⟨hn, hne, he, hse, hs, hsw, hw, hnw⟩ := neighbors_ok_all hash rec hres
      exfalso
      cases d <;> simp_all
    | error e2 => exact ⟨e2, rfl, neighbors_error_src hash e2 hres⟩

/-- Witness for C8: for the corner cell `"z"` the aggregator fails, and a
failing direction carrying the same error exists. -/
theorem C8_neighbors_witness :
    ∃ e2, neighbors ("z".toList) = .error e2 ∧
      ∃ d2, neighbor ("z".toList) d2 = .error e2 :=
  (C8_neighbors ("z".toList)).2.2 .SE
    (.InvalidCoordinateRange ⟨.val (405 / 2), .val (45 / 2)⟩) (by decide)

/-! ### Correctness of the double-precision rounding on representable dyadics -/

theorem natLog2F_spec : ∀ (fuel n : ℕ), 1 ≤ n → n < 2 ^ fuel →
    2 ^ natLog2F fuel n ≤ n ∧ n < 2 ^ (natLog2F fuel n + 1) := by
  intro fuel
  induction fuel with
  | zero => intro n h1 h2; omega
  | succ fuel ih =>
    intro n h1 h2
    by_cases h : 2 ≤ n
    · have hhalf : 1 ≤ n / 2 := by omega
      have hlt : n / 2 < 2 ^ fuel := by
        have hp : 2 ^ (fuel + 1) = 2 ^ fuel * 2 := by ring
        omega
      obtain ⟨ha, hb⟩ := ih (n / 2) hhalf hlt
      simp only [natLog2F, if_pos h]
      constructor
      · have : 2 ^ (natLog2F fuel (n / 2) + 1) = 2 ^ natLog2F fuel (n / 2) * 2 := by ring
        omega
      · have : 2 ^ (natLog2F fuel (n / 2) + 1 + 1) = 2 ^ (natLog2F fuel (n / 2) + 1) * 2 := by
          ring
        omega
    · simp only [natLog2F, if_neg h]
      omega

theorem natLog2_le (n : ℕ) (h1 : 1 ≤ n) (h2 : n < 2 ^ 2048) : 2 ^ natLog2 n ≤ n :=
  (natLog2F_spec 2048 n h1 h2).1

theorem natLog2_gt (n : ℕ) (h1 : 1 ≤ n) (h2 : n < 2 ^ 2048) : n < 2 ^ (natLog2 n + 1) :=
  (natLog2F_spec 2048 n h1 h2).2

theorem roundNearestEven_intCast (n : ℤ) : roundNearestEven (n : ℚ) = n := by
  unfold roundNearestEven
  rw [Int.floor_intCast]
  norm_num

theorem round53_dyadic (m : ℤ) (s : ℕ) (hm : m.natAbs < 2 ^ 53) (hs : s ≤ 60) :
    round53 ((m : ℚ) / 2 ^ s) = (m : ℚ) / 2 ^ s := by
  rcases eq_or_ne m 0 with rfl | hm0
  · simp [round53]
  · have h2s : ((2 : ℚ) ^ s) ≠ 0 := by positivity
    have hq0 : (m : ℚ) / 2 ^ s ≠ 0 := div_ne_zero (by exact_mod_cast hm0) h2s
    have hqdiv : (m : ℚ) / 2 ^ s = Rat.divInt m (2 ^ s : ℤ) := by
      rw [Rat.divInt_eq_div]
      norm_cast
    have hdvd_den : ((((m : ℚ) / 2 ^ s).den : ℤ)) ∣ (2 ^ s : ℤ) := by
      rw [hqdiv]
      exact Rat.den_dvd m (2 ^ s)
    have hden_le : ((m : ℚ) / 2 ^ s).den ≤ 2 ^ s := by
      refine Nat.le_of_dvd (by positivity) ?_
      exact_mod_cast hdvd_den
    have hdvd_num : ((m : ℚ) / 2 ^ s).num ∣ m := by
      rw [hqdiv]
      exact Rat.num_dvd m (by positivity)
    have hnum_le : ((m : ℚ) / 2 ^ s).num.natAbs ≤ m.natAbs :=
      Nat.le_of_dvd (Int.natAbs_pos.mpr hm0) (Int.natAbs_dvd_natAbs.mpr hdvd_num)
    have hnum_lt : ((m : ℚ) / 2 ^ s).num.natAbs < 2 ^ 2048 :=
      lt_of_le_of_lt hnum_le (lt_trans hm (by norm_num))
    have hden_lt : ((m : ℚ) / 2 ^ s).den < 2 ^ 2048 := by
      refine lt_of_le_of_lt hden_le ?_
      calc (2 : ℕ) ^ s ≤ 2 ^ 60 := Nat.pow_le_pow_right (by norm_num) hs
        _ < 2 ^ 2048 := by norm_num
    have hnum_pos : 1 ≤ ((m : ℚ) / 2 ^ s).num.natAbs :=
      Int.natAbs_pos.mpr (Rat.num_ne_zero.mpr hq0)
    have hden_pos : 1 ≤ ((m : ℚ) / 2 ^ s).den := ((m : ℚ) / 2 ^ s).pos
    have habs : |(m : ℚ) / 2 ^ s| =
        (((m : ℚ) / 2 ^ s).num.natAbs : ℚ) / (((m : ℚ) / 2 ^ s).den : ℚ) := by
      conv_lhs => rw [← Rat.num_div_den ((m : ℚ) / 2 ^ s)]
      rw [abs_div]
      congr 1
      · rw [Int.cast_natAbs, Int.cast_abs]
      · exact abs_of_pos (by exact_mod_cast hden_pos)
    have hcross : ((m : ℚ) / 2 ^ s).num * 2 ^ s = m * (((m : ℚ) / 2 ^ s).den : ℤ) := by
      have h1 : (((m : ℚ) / 2 ^ s).num : ℚ) / (((m : ℚ) / 2 ^ s).den : ℚ) =
          (m : ℚ) / 2 ^ s := Rat.num_div_den _
      have hdenq : ((((m : ℚ) / 2 ^ s).den : ℚ)) ≠ 0 := by
        exact_mod_cast Nat.one_le_iff_ne_zero.mp hden_pos
      field_simp at h1
      exact_mod_cast h1
    have hub : |(m : ℚ) / 2 ^ s| < (2 : ℚ) ^ ((53 : ℤ) - s) := by
      rw [habs]
      have e1 : (2 : ℚ) ^ ((53 : ℤ) - s) = (2 ^ 53 : ℚ) / 2 ^ s := by
        rw [zpow_sub₀ two_ne_zero]
        norm_num
      rw [e1, div_lt_div_iff (by exact_mod_cast hden_pos) (by positivity)]
      have hna : (((m : ℚ) / 2 ^ s).num.natAbs : ℤ) * 2 ^ s =
          (m.natAbs : ℤ) * (((m : ℚ) / 2 ^ s).den : ℤ) := by
        have := congrArg Int.natAbs hcross
        rw [Int.natAbs_mul, Int.natAbs_mul] at this
        simp only [Int.natAbs_pow] at this
        exact_mod_cast this
      have hfin : (((m : ℚ) / 2 ^ s).num.natAbs : ℤ) * 2 ^ s <
          2 ^ 53 * (((m : ℚ) / 2 ^ s).den : ℤ) := by
        rw [hna]
        have hmlt : (m.natAbs : ℤ) < 2 ^ 53 := by exact_mod_cast hm
        have hdpos : (0 : ℤ) < (((m : ℚ) / 2 ^ s).den : ℤ) := by exact_mod_cast hden_pos
        exact mul_lt_mul_of_pos_right hmlt hdpos
      exact_mod_cast hfin
    have he : qlog2 ((m : ℚ) / 2 ^ s) ≤ 52 - s := by
      have hqu : qlog2 ((m : ℚ) / 2 ^ s) =
          if |(m : ℚ) / 2 ^ s| < 2 ^ ((natLog2 ((m : ℚ) / 2 ^ s).num.natAbs : ℤ) -
              (natLog2 ((m : ℚ) / 2 ^ s).den : ℤ)) then
            ((natLog2 ((m : ℚ) / 2 ^ s).num.natAbs : ℤ) -
              (natLog2 ((m : ℚ) / 2 ^ s).den : ℤ)) - 1
          else (natLog2 ((m : ℚ) / 2 ^ s).num.natAbs : ℤ) -
            (natLog2 ((m : ℚ) / 2 ^ s).den : ℤ) := rfl
      rw [hqu]
      split
      case isTrue h =>
        have hla := natLog2_le _ hnum_pos hnum_lt
        have hlb := natLog2_gt _ hden_pos hden_lt
        have hlow : (2 : ℚ) ^ (((natLog2 ((m : ℚ) / 2 ^ s).num.natAbs : ℤ) -
            (natLog2 ((m : ℚ) / 2 ^ s).den : ℤ)) - 1) < |(m : ℚ) / 2 ^ s| := by
          rw [habs]
          have e1 : (2 : ℚ) ^ (((natLog2 ((m : ℚ) / 2 ^ s).num.natAbs : ℤ) -
              (natLog2 ((m : ℚ) / 2 ^ s).den : ℤ)) - 1) =
              (2 ^ natLog2 ((m : ℚ) / 2 ^ s).num.natAbs : ℚ) /
                2 ^ (natLog2 ((m : ℚ) / 2 ^ s).den + 1) := by
            rw [eq_div_iff (by positivity), ← zpow_natCast (2 : ℚ)
              (natLog2 ((m : ℚ) / 2 ^ s).num.natAbs),
              ← zpow_natCast (2 : ℚ) (natLog2 ((m : ℚ) / 2 ^ s).den + 1),
              ← zpow_add₀ (two_ne_zero)]
            congr 1
            push_cast
            ring
          rw [e1, div_lt_div_iff (by positivity) (by exact_mod_cast hden_pos)]
          have g1 : (2 : ℚ) ^ natLog2 ((m : ℚ) / 2 ^ s).num.natAbs ≤
              (((m : ℚ) / 2 ^ s).num.natAbs : ℚ) := by exact_mod_cast hla
          have g2 : ((((m : ℚ) / 2 ^ s).den : ℚ)) <
              2 ^ (natLog2 ((m : ℚ) / 2 ^ s).den + 1) := by exact_mod_cast hlb
          calc (2 : ℚ) ^ natLog2 ((m : ℚ) / 2 ^ s).num.natAbs * ((m : ℚ) / 2 ^ s).den ≤
              (((m : ℚ) / 2 ^ s).num.natAbs : ℚ) * ((m : ℚ) / 2 ^ s).den := by
                apply mul_le_mul_of_nonneg_right g1 (by positivity)
            _ < (((m : ℚ) / 2 ^ s).num.natAbs : ℚ) *
                2 ^ (natLog2 ((m : ℚ) / 2 ^ s).den + 1) := by
                apply mul_lt_mul_of_pos_left g2 (by exact_mod_cast hnum_pos)
        have hcmp := lt_trans hlow hub
        have hk := (zpow_lt_zpow_iff_right₀ (by norm_num : (1 : ℚ) < 2)).mp hcmp
        omega
      case isFalse h =>
        push_neg at h
        have hcmp := lt_of_le_of_lt h hub
        have hk := (zpow_lt_zpow_iff_right₀ (by norm_num : (1 : ℚ) < 2)).mp hcmp
        omega
    have ht' : (52 : ℤ) - qlog2 ((m : ℚ) / 2 ^ s) =
        (s : ℤ) + ((52 - qlog2 ((m : ℚ) / 2 ^ s) - s).toNat : ℤ) := by omega
    have hscaled : ((m : ℚ) / 2 ^ s) * 2 ^ ((52 : ℤ) - qlog2 ((m : ℚ) / 2 ^ s)) =
        ((m * 2 ^ ((52 - qlog2 ((m : ℚ) / 2 ^ s) - s).toNat) : ℤ) : ℚ) := by
      rw [ht', zpow_add₀ two_ne_zero, zpow_natCast, zpow_natCast]
      push_cast
      field_simp
      ring
    unfold round53
    rw [if_neg hq0]
    show (roundNearestEven (((m : ℚ) / 2 ^ s) * 2 ^ ((52 : ℤ) - qlog2 ((m : ℚ) / 2 ^ s))) : ℚ) /
        2 ^ ((52 : ℤ) - qlog2 ((m : ℚ) / 2 ^ s)) = (m : ℚ) / 2 ^ s
    rw [hscaled, roundNearestEven_intCast, ht', zpow_add₀ two_ne_zero, zpow_natCast,
      zpow_natCast]
    push_cast
    have hexp : ((s : ℤ) + ((52 - qlog2 ((m : ℚ) / 2 ^ s) - s).toNat : ℤ) - s).toNat =
        (52 - qlog2 ((m : ℚ) / 2 ^ s) - s).toNat := by omega
    rw [hexp]
    rw [mul_div_mul_right _ _
      (by positivity : ((2 : ℚ) ^ ((52 - qlog2 ((m : ℚ) / 2 ^ s) - s).toNat)) ≠ 0)]

/-! ### The dyadic grid on which double-precision midpoints are exact -/

/-- A bound after `j` halvings of one axis: an integer multiple of `45 / 2 ^ j`
of magnitude at most `360`. -/
def Gr (j : ℕ) (q : ℚ) : Prop :=
  ∃ m : ℤ, q = (m : ℚ) * 45 / 2 ^ j ∧ m.natAbs ≤ 2 ^ (j + 3)

theorem Gr_succ {j : ℕ} {q : ℚ} (h : Gr j q) : Gr (j + 1) q := by
  obtain ⟨m, hq, hm⟩ := h
  refine ⟨2 * m, ?_, ?_⟩
  · rw [hq, pow_succ]
    push_cast
    ring
  · have h2 : (2 : ℤ).natAbs = 2 := rfl
    rw [Int.natAbs_mul, h2]
    have hp : 2 ^ (j + 1 + 3) = 2 ^ (j + 3) * 2 := by ring
    omega

theorem Gr_mono {j j2 : ℕ} (h : j ≤ j2) {q : ℚ} (hq : Gr j q) : Gr j2 q := by
  induction j2, h using Nat.le_induction with
  | base => exact hq
  | succ n hn ih => exact Gr_succ ih

theorem grid_sum_lt (j : ℕ) (hj : j ≤ 43) (ma mb : ℤ)
    (ha : ma.natAbs ≤ 2 ^ (j + 3)) (hb : mb.natAbs ≤ 2 ^ (j + 3)) :
    ((ma + mb) * 45).natAbs < 2 ^ 53 := by
  rw [Int.natAbs_mul]
  have h1 : (ma + mb).natAbs ≤ 2 ^ (j + 4) := by
    have := Int.natAbs_add_le ma mb
    have hp : 2 ^ (j + 4) = 2 ^ (j + 3) * 2 := by ring
    omega
  have h2 : (2 : ℕ) ^ (j + 4) ≤ 2 ^ 47 := Nat.pow_le_pow_right (by norm_num) (by omega)
  have h3 : (45 : ℤ).natAbs = 45 := rfl
  calc (ma + mb).natAbs * (45 : ℤ).natAbs ≤ 2 ^ 47 * 45 := by
        rw [h3]
        exact Nat.mul_le_mul (le_trans h1 h2) (le_refl 45)
    _ < 2 ^ 53 := by norm_num

theorem fadd_grid {j : ℕ} (hj : j ≤ 43) {a b : ℚ} (ha : Gr j a) (hb : Gr j b) :
    fadd a b = a + b := by
  obtain ⟨ma, ha1, ha2⟩ := ha
  obtain ⟨mb, hb1, hb2⟩ := hb
  have hsum : a + b = (((ma + mb) * 45 : ℤ) : ℚ) / 2 ^ j := by
    rw [ha1, hb1]
    push_cast
    ring
  unfold fadd
  rw [hsum]
  exact round53_dyadic _ j (grid_sum_lt j hj ma mb ha2 hb2) (by omega)

theorem fsub_grid {j : ℕ} (hj : j ≤ 43) {a b : ℚ} (ha : Gr j a) (hb : Gr j b) :
    fsub a b = a - b := by
  obtain ⟨ma, ha1, ha2⟩ := ha
  obtain ⟨mb, hb1, hb2⟩ := hb
  have hdiff : a - b = (((ma + -mb) * 45 : ℤ) : ℚ) / 2 ^ j := by
    rw [ha1, hb1]
    push_cast
    ring
  unfold fsub
  rw [hdiff]
  refine round53_dyadic _ j (grid_sum_lt j hj ma (-mb) ha2 ?_) (by omega)
  rw [Int.natAbs_neg]
  exact hb2

theorem mid_grid {j : ℕ} {a b : ℚ} (ha : Gr j a) (hb : Gr j b) :
    Gr (j + 1) ((a + b) / 2) := by
  obtain ⟨ma, ha1, ha2⟩ := ha
  obtain ⟨mb, hb1, hb2⟩ := hb
  refine ⟨ma + mb, ?_, ?_⟩
  · rw [ha1, hb1, pow_succ]
    push_cast
    ring
  · have := Int.natAbs_add_le ma mb
    have hp : 2 ^ (j + 1 + 3) = 2 ^ (j + 3) * 2 := by ring
    omega

/-- All four bounds on the per-axis grids. -/
def GrB (jlon jlat : ℕ) (b : BBox) : Prop :=
  Gr jlon b.minLon ∧ Gr jlon b.maxLon ∧ Gr jlat b.minLat ∧ Gr jlat b.maxLat

theorem GrB_init : GrB 0 0 ⟨90, -90, 180, -180⟩ := by
  refine ⟨⟨-4, by norm_num, by decide⟩, ⟨4, by norm_num, by decide⟩,
    ⟨-2, by norm_num, by decide⟩, ⟨2, by norm_num, by decide⟩⟩

/-! ### In the exact regime the double-precision decoder equals the exact one -/

theorem decodeBit64_lon (bit : ℕ) (b : BBox) (jlon jlat : ℕ)
    (hg : GrB jlon jlat b) (hj : jlon ≤ 43) :
    decodeBit64 bit true b = decodeBit bit true b ∧
    GrB (jlon + 1) jlat (decodeBit bit true b) := by
  obtain ⟨g1, g2, g3, g4⟩ := hg
  have hm : fadd b.maxLon b.minLon = b.maxLon + b.minLon := fadd_grid hj g2 g1
  have hmid : Gr (jlon + 1) ((b.maxLon + b.minLon) / 2) := by
    have := mid_grid g2 g1
    exact this
  constructor
  · unfold decodeBit64 decodeBit
    rw [if_pos rfl, if_pos rfl, hm]
  · unfold decodeBit
    rw [if_pos rfl]
    split
    · exact ⟨hmid, Gr_succ g2, g3, g4⟩
    · exact ⟨Gr_succ g1, hmid, g3, g4⟩

theorem decodeBit64_lat (bit : ℕ) (b : BBox) (jlon jlat : ℕ)
    (hg : GrB jlon jlat b) (hj : jlat ≤ 43) :
    decodeBit64 bit false b = decodeBit bit false b ∧
    GrB jlon (jlat + 1) (decodeBit bit false b) := by
  obtain ⟨g1, g2, g3, g4⟩ := hg
  have hm : fadd b.maxLat b.minLat = b.maxLat + b.minLat := fadd_grid hj g4 g3
  have hmid : Gr (jlat + 1) ((b.maxLat + b.minLat) / 2) := by
    have := mid_grid g4 g3
    exact this
  have h0 : ¬((false : Bool) = true) := by simp
  constructor
  · unfold decodeBit64 decodeBit
    rw [if_neg h0, if_neg h0, hm]
  · unfold decodeBit
    rw [if_neg h0]
    split
    · exact ⟨g1, g2, hmid, Gr_succ g4⟩
    · exact ⟨g1, g2, Gr_succ g3, hmid⟩

theorem dca_fst (hv : ℕ) : ∀ (k : ℕ) (p : Bool) (b : BBox),
    (decodeCharAux hv k p b).1 = (((k % 2 == 0) : Bool) == p) := by
  intro k
  induction k with
  | zero => intro p b; cases p <;> rfl
  | succ k ih =>
    intro p b
    have hstep : decodeCharAux hv (k + 1) p b =
        decodeCharAux hv k (!p) (decodeBit ((hv >>> k) &&& 1) p b) := rfl
    rw [hstep, ih, parity_step]

theorem dca64_eq (hv : ℕ) : ∀ (k : ℕ) (p : Bool) (b : BBox) (jlon jlat : ℕ),
    GrB jlon jlat b → jlon + lonSteps k p ≤ 44 → jlat + (k - lonSteps k p) ≤ 44 →
    decodeCharAux64 hv k p b = decodeCharAux hv k p b ∧
    GrB (jlon + lonSteps k p) (jlat + (k - lonSteps k p)) (decodeCharAux hv k p b).2 := by
  intro k
  induction k with
  | zero =>
    intro p b jlon jlat hg _ _
    have h0 : lonSteps 0 p = 0 := by cases p <;> simp [lonSteps]
    refine ⟨rfl, ?_⟩
    rw [h0]
    simpa [decodeCharAux] using hg
  | succ k ih =>
    intro p b jlon jlat hg hlon hlat
    cases p
    · rw [lonSteps_false] at hlon hlat
      have hj : jlat ≤ 43 := by omega
      obtain ⟨heq, hgrid⟩ := decodeBit64_lat ((hv >>> k) &&& 1) b jlon jlat hg hj
      have hs64 : decodeCharAux64 hv (k + 1) false b =
          decodeCharAux64 hv k true (decodeBit64 ((hv >>> k) &&& 1) false b) := rfl
      have hs : decodeCharAux hv (k + 1) false b =
          decodeCharAux hv k true (decodeBit ((hv >>> k) &&& 1) false b) := rfl
      obtain ⟨ih1, ih2⟩ := ih true (decodeBit ((hv >>> k) &&& 1) false b) jlon (jlat + 1)
        hgrid (by rw [lonSteps_true]; omega) (by rw [lonSteps_true]; omega)
      rw [lonSteps_true] at ih2
      constructor
      · rw [hs64, heq, ih1, hs]
      · rw [hs, lonSteps_false]
        have e1 : jlon + (k + 1) / 2 = jlon + (k + 1) / 2 := rfl
        have e2 : jlat + (k + 1 - (k + 1) / 2) = jlat + 1 + (k - (k + 1) / 2) := by omega
        rw [e2]
        exact ih2
    · rw [lonSteps_true] at hlon hlat
      have hj : jlon ≤ 43 := by omega
      obtain ⟨heq, hgrid⟩ := decodeBit64_lon ((hv >>> k) &&& 1) b jlon jlat hg hj
      have hs64 : decodeCharAux64 hv (k + 1) true b =
          decodeCharAux64 hv k false (decodeBit64 ((hv >>> k) &&& 1) true b) := rfl
      have hs : decodeCharAux hv (k + 1) true b =
          decodeCharAux hv k false (decodeBit ((hv >>> k) &&& 1) true b) := rfl
      obtain ⟨ih1, ih2⟩ := ih false (decodeBit ((hv >>> k) &&& 1) true b) (jlon + 1) jlat
        hgrid (by rw [lonSteps_false]; omega) (by rw [lonSteps_false]; omega)
      rw [lonSteps_false] at ih2
      constructor
      · rw [hs64, heq, ih1, hs]
      · rw [hs, lonSteps_true]
        have e1 : jlon + (k + 1 + 1) / 2 = jlon + 1 + k / 2 := by omega
        have e2 : jlat + (k + 1 - (k + 1 + 1) / 2) = jlat + (k - k / 2) := by omega
        rw [e1, e2]
        exact ih2

theorem dloop64_eq : ∀ (hash : List Char) (p : Bool) (b : BBox) (jlon jlat : ℕ),
    GrB jlon jlat b →
    jlon + lonBitsN hash.length p ≤ 44 →
    jlat + (5 * hash.length - lonBitsN hash.length p) ≤ 44 →
    decodeLoop64 hash p b = decodeLoop hash p b ∧
    ∀ res, decodeLoop hash p b = .ok res →
      GrB (jlon + lonBitsN hash.length p)
        (jlat + (5 * hash.length - lonBitsN hash.length p)) res.2 := by
  intro hash
  induction hash with
  | nil =>
    intro p b jlon jlat hg _ _
    refine ⟨rfl, ?_⟩
    intro res hres
    simp only [decodeLoop, Except.ok.injEq] at hres
    rw [← hres]
    have h0 : lonBitsN ([] : List Char).length p = 0 := by cases p <;> simp [lonBitsN]
    rw [h0]
    simpa using hg
  | cons ch rest ih =>
    intro p b jlon jlat hg hlon hlat
    cases hch : hash_value_of_char ch with
    | error e =>
      refine ⟨by simp only [decodeLoop64, decodeLoop, hch], ?_⟩
      intro res hres
      simp only [decodeLoop, hch] at hres
      exact absurd hres (by simp)
    | ok hv =>
      have hsplit : lonBitsN (ch :: rest).length p =
          lonSteps 5 p + lonBitsN rest.length (!p) := by
        cases p <;> simp [lonSteps, lonBitsN, List.length_cons] <;> omega
      have hsplit2 : 5 * (ch :: rest).length - lonBitsN (ch :: rest).length p =
          (5 - lonSteps 5 p) + (5 * rest.length - lonBitsN rest.length (!p)) := by
        cases p <;> simp [lonSteps, lonBitsN, List.length_cons] <;> omega
      obtain ⟨heq, hgrid⟩ := dca64_eq hv 5 p b jlon jlat hg (by omega) (by omega)
      have hfst : (decodeCharAux hv 5 p b).1 = !p := by
        rw [dca_fst]
        cases p <;> rfl
      obtain ⟨ihEq, ihGr⟩ := ih (!p) (decodeCharAux hv 5 p b).2
        (jlon + lonSteps 5 p) (jlat + (5 - lonSteps 5 p)) hgrid (by omega) (by omega)
      constructor
      · simp only [decodeLoop64, decodeLoop, hch]
        rw [heq, hfst]
        exact ihEq
      · intro res hres
        simp only [decodeLoop, hch] at hres
        rw [hfst] at hres
        have hfin := ihGr res hres
        have e1 : jlon + lonBitsN (ch :: rest).length p =
            jlon + lonSteps 5 p + lonBitsN rest.length (!p) := by omega
        have e2 : jlat + (5 * (ch :: rest).length - lonBitsN (ch :: rest).length p) =
            jlat + (5 - lonSteps 5 p) + (5 * rest.length - lonBitsN rest.length (!p)) := by
          omega
        rw [e1, e2]
        exact hfin

theorem decode64_bbox_eq (hash : List Char) (hlen : hash.length ≤ 17) :
    decode64_bbox hash = decode_bbox hash := by
  have hb1 : 0 + lonBitsN hash.length true ≤ 44 := by
    rw [lonBitsN_true]
    omega
  have hb2 : 0 + (5 * hash.length - lonBitsN hash.length true) ≤ 44 := by
    rw [lonBitsN_true]
    omega
  obtain ⟨heq, -⟩ := dloop64_eq hash true ⟨90, -90, 180, -180⟩ 0 0 GrB_init hb1 hb2
  unfold decode64_bbox decode_bbox
  rw [heq]

theorem decode64_eq (hash : List Char) (hlen : hash.length ≤ 17) :
    decode64 hash = decode hash := by
  have hb1 : 0 + lonBitsN hash.length true ≤ 44 := by
    rw [lonBitsN_true]
    omega
  have hb2 : 0 + (5 * hash.length - lonBitsN hash.length true) ≤ 44 := by
    rw [lonBitsN_true]
    omega
  obtain ⟨heq, hgr⟩ := dloop64_eq hash true ⟨90, -90, 180, -180⟩ 0 0 GrB_init hb1 hb2
  cases hloop : decodeLoop hash true ⟨90, -90, 180, -180⟩ with
  | error e =>
    unfold decode64 decode decode64_bbox decode_bbox
    rw [heq, hloop]
  | ok res =>
    obtain ⟨gmnl, gmxl, gmnt, gmxt⟩ := hgr res hloop
    have hjlon : 0 + lonBitsN hash.length true ≤ 43 := by
      rw [lonBitsN_true]
      omega
    have hjlat : 0 + (5 * hash.length - lonBitsN hash.length true) ≤ 43 := by
      rw [lonBitsN_true]
      omega
    have hf1 : fadd res.2.minLon res.2.maxLon = res.2.minLon + res.2.maxLon :=
      fadd_grid (le_trans (le_refl _) hjlon) gmnl gmxl
    have hf2 : fadd res.2.minLat res.2.maxLat = res.2.minLat + res.2.maxLat :=
      fadd_grid hjlat gmnt gmxt
    have hf3 : fsub res.2.maxLon res.2.minLon = res.2.maxLon - res.2.minLon :=
      fsub_grid hjlon gmxl gmnl
    have hf4 : fsub res.2.maxLat res.2.minLat = res.2.maxLat - res.2.minLat :=
      fsub_grid hjlat gmxt gmnt
    unfold decode64 decode decode64_bbox decode_bbox
    rw [heq, hloop]
    simp only
    rw [hf1, hf2, hf3, hf4]

/-! ### In the exact regime the double-precision encoder equals the exact one -/

theorem encodeBit64_even (c : Coordinate F) (bt : ℕ) (hp : bt % 2 = 0) (b : BBox)
    (jlon jlat : ℕ) (hg : GrB jlon jlat b) (hj : jlon ≤ 43) :
    encodeBit64 c bt b = encodeBit c bt b ∧
    GrB (jlon + 1) jlat (encodeBit c bt b).2 := by
  obtain ⟨g1, g2, g3, g4⟩ := hg
  have hm : fadd b.maxLon b.minLon = b.maxLon + b.minLon := fadd_grid hj g2 g1
  have hmid : Gr (jlon + 1) ((b.maxLon + b.minLon) / 2) := mid_grid g2 g1
  have hc : ((bt % 2 == 0) : Bool) = true := by simp [hp]
  constructor
  · unfold encodeBit64 encodeBit
    rw [hc, if_pos rfl, if_pos rfl, hm]
  · unfold encodeBit
    rw [hc, if_pos rfl]
    dsimp only
    split
    · exact ⟨hmid, Gr_succ g2, g3, g4⟩
    · exact ⟨Gr_succ g1, hmid, g3, g4⟩

theorem encodeBit64_odd (c : Coordinate F) (bt : ℕ) (hp : bt % 2 = 1) (b : BBox)
    (jlon jlat : ℕ) (hg : GrB jlon jlat b) (hj : jlat ≤ 43) :
    encodeBit64 c bt b = encodeBit c bt b ∧
    GrB jlon (jlat + 1) (encodeBit c bt b).2 := by
  obtain ⟨g1, g2, g3, g4⟩ := hg
  have hm : fadd b.maxLat b.minLat = b.maxLat + b.minLat := fadd_grid hj g4 g3
  have hmid : Gr (jlat + 1) ((b.maxLat + b.minLat) / 2) := mid_grid g4 g3
  have hc : ((bt % 2 == 0) : Bool) = false := by simp [hp]
  have h0 : ¬((false : Bool) = true) := by simp
  constructor
  · unfold encodeBit64 encodeBit
    rw [hc, if_neg h0, if_neg h0, hm]
  · unfold encodeBit
    rw [hc, if_neg h0]
    dsimp only
    split
    · exact ⟨g1, g2, hmid, Gr_succ g4⟩
    · exact ⟨g1, g2, Gr_succ g3, hmid⟩

theorem estep64_eq (c : Coordinate F) : ∀ (k bt : ℕ) (b : BBox) (hv : ℕ) (jlon jlat : ℕ),
    GrB jlon jlat b →
    jlon + lonSteps k (bt % 2 == 0) ≤ 44 →
    jlat + (k - lonSteps k (bt % 2 == 0)) ≤ 44 →
    encodeStep64 c k bt b hv = encodeStep c k bt b hv ∧
    GrB (jlon + lonSteps k (bt % 2 == 0)) (jlat + (k - lonSteps k (bt % 2 == 0)))
      (encodeStep c k bt b hv).2 := by
  intro k
  induction k with
  | zero =>
    intro bt b hv jlon jlat hg _ _
    have h0 : lonSteps 0 (bt % 2 == 0) = 0 := by cases (bt % 2 == 0) <;> simp [lonSteps]
    refine ⟨rfl, ?_⟩
    rw [h0]
    simpa [encodeStep] using hg
  | succ k ih =>
    intro bt b hv jlon jlat hg hlon hlat
    rcases Nat.mod_two_eq_zero_or_one bt with hp | hp
    · have hc : ((bt % 2 == 0) : Bool) = true := by simp [hp]
      have hc1 : (((bt + 1) % 2 == 0) : Bool) = false := by
        have : (bt + 1) % 2 = 1 := by omega
        simp [this]
      rw [hc, lonSteps_true] at hlon hlat
      have hj : jlon ≤ 43 := by omega
      obtain ⟨heq, hgrid⟩ := encodeBit64_even c bt hp b jlon jlat hg hj
      have hs64 : encodeStep64 c (k + 1) bt b hv =
          encodeStep64 c k (bt + 1) (encodeBit64 c bt b).2 (hv * 2 + (encodeBit64 c bt b).1) :=
        rfl
      have hs : encodeStep c (k + 1) bt b hv =
          encodeStep c k (bt + 1) (encodeBit c bt b).2 (hv * 2 + (encodeBit c bt b).1) := rfl
      obtain ⟨ih1, ih2⟩ := ih (bt + 1) (encodeBit c bt b).2 (hv * 2 + (encodeBit c bt b).1)
        (jlon + 1) jlat hgrid (by rw [hc1, lonSteps_false]; omega)
        (by rw [hc1, lonSteps_false]; omega)
      rw [hc1, lonSteps_false] at ih2
      constructor
      · rw [hs64, heq, ih1, hs]
      · rw [hs, hc, lonSteps_true]
        have e1 : jlon + (k + 1 + 1) / 2 = jlon + 1 + k / 2 := by omega
        have e2 : jlat + (k + 1 - (k + 1 + 1) / 2) = jlat + (k - k / 2) := by omega
        rw [e1, e2]
        exact ih2
    · have hc : ((bt % 2 == 0) : Bool) = false := by simp [hp]
      have hc1 : (((bt + 1) % 2 == 0) : Bool) = true := by
        have : (bt + 1) % 2 = 0 := by omega
        simp [this]
      rw [hc, lonSteps_false] at hlon hlat
      have hj : jlat ≤ 43 := by omega
      obtain ⟨heq, hgrid⟩ := encodeBit64_odd c bt hp b jlon jlat hg hj
      have hs64 : encodeStep64 c (k + 1) bt b hv =
          encodeStep64 c k (bt + 1) (encodeBit64 c bt b).2 (hv * 2 + (encodeBit64 c bt b).1) :=
        rfl
      have hs : encodeStep c (k + 1) bt b hv =
          encodeStep c k (bt + 1) (encodeBit c bt b).2 (hv * 2 + (encodeBit c bt b).1) := rfl
      obtain ⟨ih1, ih2⟩ := ih (bt + 1) (encodeBit c bt b).2 (hv * 2 + (encodeBit c bt b).1)
        jlon (jlat + 1) hgrid (by rw [hc1, lonSteps_true]; omega)
        (by rw [hc1, lonSteps_true]; omega)
      rw [hc1, lonSteps_true] at ih2
      constructor
      · rw [hs64, heq, ih1, hs]
      · rw [hs, hc, lonSteps_false]
        have e1 : jlon + (k + 1) / 2 = jlon + (k + 1) / 2 := rfl
        have e2 : jlat + (k + 1 - (k + 1) / 2) = jlat + 1 + (k - (k + 1) / 2) := by omega
        rw [e2]
        exact ih2

theorem parity_flip5 (bt : ℕ) : (((bt + 5) % 2 == 0) : Bool) = !(bt % 2 == 0) := by
  rcases Nat.mod_two_eq_zero_or_one bt with h | h
  · have h1 : (bt + 5) % 2 = 1 := by omega
    rw [h, h1]
    rfl
  · have h1 : (bt + 5) % 2 = 0 := by omega
    rw [h, h1]
    rfl

theorem eloop64_eq (c : Coordinate F) : ∀ (n bt : ℕ) (b : BBox) (jlon jlat : ℕ),
    GrB jlon jlat b →
    jlon + lonBitsN n (bt % 2 == 0) ≤ 44 →
    jlat + (5 * n - lonBitsN n (bt % 2 == 0)) ≤ 44 →
    encodeLoop64 c n bt b = encodeLoop c n bt b := by
  intro n
  induction n with
  | zero => intro bt b jlon jlat _ _ _; rfl
  | succ n ih =>
    intro bt b jlon jlat hg hlon hlat
    have hsplit : lonBitsN (n + 1) (bt % 2 == 0) =
        lonSteps 5 (bt % 2 == 0) + lonBitsN n (!(bt % 2 == 0)) := by
      cases (bt % 2 == 0) <;> simp [lonSteps, lonBitsN] <;> omega
    have hsplit2 : 5 * (n + 1) - lonBitsN (n + 1) (bt % 2 == 0) =
        (5 - lonSteps 5 (bt % 2 == 0)) + (5 * n - lonBitsN n (!(bt % 2 == 0))) := by
      cases (bt % 2 == 0) <;> simp [lonSteps, lonBitsN] <;> omega
    obtain ⟨heq, hgrid⟩ := estep64_eq c 5 bt b 0 jlon jlat hg (by omega) (by omega)
    have hih := ih (bt + 5) (encodeStep c 5 bt b 0).2
      (jlon + lonSteps 5 (bt % 2 == 0)) (jlat + (5 - lonSteps 5 (bt % 2 == 0))) hgrid
      (by rw [parity_flip5]; omega) (by rw [parity_flip5]; omega)
    show (BASE32_CODES.getD (encodeStep64 c 5 bt b 0).1 '?' ::
        (encodeLoop64 c n (bt + 5) (encodeStep64 c 5 bt b 0).2).1,
        (encodeLoop64 c n (bt + 5) (encodeStep64 c 5 bt b 0).2).2) = _
    rw [heq, hih]
    rfl

theorem encode64_eq (c : Coordinate F) (len : ℕ) (hlen : len ≤ 17) :
    encode64 c len = encode c len := by
  unfold encode64 encode
  split
  · rfl
  · have h00 : (((0 : ℕ) % 2 == 0) : Bool) = true := rfl
    have h := eloop64_eq c len 0 ⟨90, -90, 180, -180⟩ 0 0 GrB_init
      (by rw [h00, lonBitsN_true]; omega) (by rw [h00, lonBitsN_true]; omega)
    rw [h]

/-! ### Amended claims over the double-precision model -/

/-- Claim C6 (amended): in the double-precision model, appending one alphabet
character to a valid hash string strictly narrows the decoded rectangle — the
prefix rectangle contains the extension rectangle and both axis widths
strictly shrink — provided the extended length stays within the exact regime
(at most 17 characters, where every midpoint is a dyadic rational the 53-bit
mantissa represents exactly).  Beyond that regime the claim fails:
`C6_f64_counterexample` exhibits a 22-character prefix whose extension decodes
to the identical degenerate rectangle. -/
theorem C6_nesting_f64 (hash : List Char) (ch : Char)
    (hmem : ∀ c ∈ hash, c ∈ BASE32_CODES) (hch : ch ∈ BASE32_CODES)
    (hlen : hash.length + 1 ≤ 17) :
    ∃ r r2, decode64_bbox hash = .ok r ∧ decode64_bbox (hash ++ [ch]) = .ok r2 ∧
      r.min.x ≤ r2.min.x ∧ r2.max.x ≤ r.max.x ∧
      r.min.y ≤ r2.min.y ∧ r2.max.y ≤ r.max.y ∧
      r2.max.x - r2.min.x < r.max.x - r.min.x ∧
      r2.max.y - r2.min.y < r.max.y - r.min.y := by
  rw [decode64_bbox_eq hash (by omega),
      decode64_bbox_eq (hash ++ [ch]) (by simpa using hlen)]
  exact nesting_exact hash ch hmem hch

/-- Witness for C6 at the concrete prefix `"9"` extended by `q`. -/
theorem C6_nesting_f64_witness :
    ∃ r r2, decode64_bbox ("9".toList) = .ok r ∧
      decode64_bbox ("9".toList ++ ['q']) = .ok r2 ∧
      r.min.x ≤ r2.min.x ∧ r2.max.x ≤ r.max.x ∧
      r.min.y ≤ r2.min.y ∧ r2.max.y ≤ r.max.y ∧
      r2.max.x - r2.min.x < r.max.x - r.min.x ∧
      r2.max.y - r2.min.y < r.max.y - r.min.y :=
  C6_nesting_f64 ("9".toList) 'q' (by decide) (by decide) (by decide)

/-- Counterexample to the original C6: under double-precision midpoints the
rectangles stop narrowing once their width underflows the mantissa — the
22-`z` hash and its 23-`z` extension decode to the same degenerate rectangle,
so the prefix rectangle does not strictly contain the extension rectangle. -/
theorem C6_f64_counterexample :
    decode64_bbox (List.replicate 22 'z') = .ok ⟨⟨180, 90⟩, ⟨180, 90⟩⟩ ∧
    decode64_bbox (List.replicate 23 'z') = .ok ⟨⟨180, 90⟩, ⟨180, 90⟩⟩ := by
  constructor <;> decide

/-- Claim C7 (amended): in the double-precision model, for every
double-representable coordinate in range and every length `n` with
`n + 1 ≤ 17` (the exact regime of the 53-bit mantissa), decoding the result of
`encode` succeeds, yields a center within `lon_error` of the longitude and
within `lat_error` of the latitude, the errors are the closed-form half-cell
sizes `180 / 2 ^ ⌈5n/2⌉` and `90 / 2 ^ ⌊5n/2⌋`, and both errors strictly
shrink from `n` to `n + 1`.  Beyond that regime strict shrinking fails:
`C7_f64_counterexample` exhibits equal errors at lengths 22 and 23. -/
theorem C7_round_trip_f64 (qx qy : ℚ) (n : ℕ)
    (hx1 : -180 ≤ qx) (hx2 : qx ≤ 180) (hy1 : -90 ≤ qy) (hy2 : qy ≤ 90)
    (hqx : round53 qx = qx) (hqy : round53 qy = qy) (hn : n + 1 ≤ 17) :
    ∃ out c le la,
      encode64 ⟨.val qx, .val qy⟩ n = .ok out ∧
      decode64 out = .ok (c, le, la) ∧
      |c.x - qx| ≤ le ∧ |c.y - qy| ≤ la ∧
      le = 180 / 2 ^ ((5 * n + 1) / 2) ∧ la = 90 / 2 ^ (5 * n / 2) ∧
      ∀ out2 c2 le2 la2,
        encode64 ⟨.val qx, .val qy⟩ (n + 1) = .ok out2 →
        decode64 out2 = .ok (c2, le2, la2) → le2 < le ∧ la2 < la := by
  obtain ⟨out, c, le, la, h1, h2, h3, h4, h5, h6, h7⟩ :=
    round_trip_exact qx qy n hx1 hx2 hy1 hy2
  have hlen : out.length = n := encode_ok_length _ n out h1
  refine ⟨out, c, le, la, ?_, ?_, h3, h4, h5, h6, ?_⟩
  · rw [encode64_eq _ n (by omega)]
    exact h1
  · rw [decode64_eq out (by omega)]
    exact h2
  · intro out2 c2 le2 la2 henc2 hdec2
    rw [encode64_eq _ (n + 1) hn] at henc2
    have hlen2 : out2.length = n + 1 := encode_ok_length _ (n + 1) out2 henc2
    rw [decode64_eq out2 (by omega)] at hdec2
    exact h7 out2 c2 le2 la2 henc2 hdec2

/-- Witness for C7 at the concrete input `(0, 0)` with `n = 1`. -/
theorem C7_round_trip_f64_witness :
    ∃ out c le la,
      encode64 ⟨.val 0, .val 0⟩ 1 = .ok out ∧
      decode64 out = .ok (c, le, la) ∧
      |c.x - 0| ≤ le ∧ |c.y - 0| ≤ la ∧
      le = 180 / 2 ^ ((5 * 1 + 1) / 2) ∧ la = 90 / 2 ^ (5 * 1 / 2) ∧
      ∀ out2 c2 le2 la2,
        encode64 ⟨.val 0, .val 0⟩ (1 + 1) = .ok out2 →
        decode64 out2 = .ok (c2, le2, la2) → le2 < le ∧ la2 < la :=
  C7_round_trip_f64 0 0 1 (by norm_num) (by norm_num) (by norm_num) (by norm_num)
    (by decide) (by decide) (by norm_num)

/-- Counterexample to the original C7: under double-precision arithmetic the
errors stop shrinking once the cell width underflows the mantissa — encoding
the corner `(180, 90)` at lengths 22 and 23 succeeds, but both hashes decode
to the same center and the same pair of errors, so the errors do not shrink
monotonically in the length. -/
theorem C7_f64_counterexample :
    encode64 ⟨.val 180, .val 90⟩ 22 = .ok ("zzzzzzzzzzzzzzzzzzzzzw".toList) ∧
    encode64 ⟨.val 180, .val 90⟩ 23 = .ok ("zzzzzzzzzzzzzzzzzzzzzw0".toList) ∧
    decode64 ("zzzzzzzzzzzzzzzzzzzzzw".toList) =
      .ok (⟨180, 90⟩, 1 / 70368744177664, 1 / 140737488355328) ∧
    decode64 ("zzzzzzzzzzzzzzzzzzzzzw0".toList) =
      .ok (⟨180, 90⟩, 1 / 70368744177664, 1 / 140737488355328) := by
  refine ⟨by decide, by decide, by decide, by decide⟩

/-! ### NaN coordinates: what survives of the original claim -/

theorem bits_total_i8_parity (k : ℕ) :
    Int.tmod (bits_total_i8 k) 2 = 0 ↔ k % 2 = 0 := by
  have h1 : Int.tmod (bits_total_i8 k) 2 = 0 ↔ (2 : ℤ) ∣ bits_total_i8 k := by
    constructor
    · exact Int.dvd_of_tmod_eq_zero
    · exact Int.tmod_eq_zero_of_dvd
  rw [h1]
  unfold bits_total_i8
  omega

theorem encodeStep64_nan : ∀ (k bt : ℕ) (b : BBox) (hv : ℕ),
    (encodeStep64 ⟨.nan, .nan⟩ k bt b hv).1 = hv * 2 ^ k := by
  intro k
  induction k with
  | zero => intro bt b hv; simp [encodeStep64]
  | succ k ih =>
    intro bt b hv
    have hbit : (encodeBit64 ⟨.nan, .nan⟩ bt b).1 = 0 := by
      unfold encodeBit64
      split <;> simp [F.gtq]
    simp only [encodeStep64]
    rw [ih, hbit]
    ring

theorem encodeLoop64_nan : ∀ (n bt : ℕ) (b : BBox),
    (encodeLoop64 ⟨.nan, .nan⟩ n bt b).1 = List.replicate n '0' := by
  intro n
  induction n with
  | zero => intro bt b; simp [encodeLoop64]
  | succ n ih =>
    intro bt b
    simp only [encodeLoop64]
    rw [List.replicate_succ]
    have h0 : (encodeStep64 ⟨.nan, .nan⟩ 5 bt b 0).1 = 0 := by
      rw [encodeStep64_nan]
      ring
    rw [h0, ih]
    rfl

/-- Claim C9 (amended): NaN never itself trips the range check (every IEEE
comparison against NaN is false) and every bit decided by a NaN axis is 0.
Concretely: with a NaN longitude every even-step (longitude) bit is 0, and
with a NaN latitude every odd-step (latitude) bit is 0; a NaN longitude
paired with a latitude that is itself NaN or in range encodes successfully
with full length at every length, and symmetrically for a NaN latitude;
encoding `(NaN, NaN)` yields the character `0` repeated `n` times for every
`n`, in the exact model and in the double-precision model alike; and the
wrapping `i8` bit counter of the source has the same parity test as the
unbounded counter at every step, so these statements cover all lengths.  The
original claim's universal quantification over every NaN-axis coordinate is
refuted by `C9_nan_counterexample`: a NaN axis paired with an out-of-range
other axis is rejected. -/
theorem C9_nan_encode :
    (∀ (cy : F) (bt : ℕ) (b : BBox), bt % 2 = 0 → (encodeBit ⟨.nan, cy⟩ bt b).1 = 0) ∧
    (∀ (cx : F) (bt : ℕ) (b : BBox), bt % 2 = 1 → (encodeBit ⟨cx, .nan⟩ bt b).1 = 0) ∧
    (∀ (cy : F) (n : ℕ), (cy = F.nan ∨ ∃ qy, cy = .val qy ∧ -90 ≤ qy ∧ qy ≤ 90) →
      ∃ out, encode ⟨.nan, cy⟩ n = .ok out ∧ out.length = n) ∧
    (∀ (cx : F) (n : ℕ), (cx = F.nan ∨ ∃ qx, cx = .val qx ∧ -180 ≤ qx ∧ qx ≤ 180) →
      ∃ out, encode ⟨cx, .nan⟩ n = .ok out ∧ out.length = n) ∧
    (∀ n : ℕ, encode ⟨.nan, .nan⟩ n = .ok (List.replicate n '0')) ∧
    (∀ n : ℕ, encode64 ⟨.nan, .nan⟩ n = .ok (List.replicate n '0')) ∧
    (∀ k : ℕ, Int.tmod (bits_total_i8 k) 2 = 0 ↔ k % 2 = 0) := by
  refine ⟨?_, ?_, ?_, ?_, ?_, ?_, bits_total_i8_parity⟩
  · intro cy bt b h
    have hc : ((bt % 2 == 0) : Bool) = true := by simp [h]
    unfold encodeBit
    rw [hc, if_pos rfl]
    simp [F.gtq]
  · intro cx bt b h
    have hc : ((bt % 2 == 0) : Bool) = false := by simp [h]
    have h0 : ¬((false : Bool) = true) := by simp
    unfold encodeBit
    rw [hc, if_neg h0]
    simp [F.gtq]
  · rintro cy n (rfl | ⟨qy, rfl, hy1, hy2⟩)
    · refine ⟨(encodeLoop ⟨F.nan, F.nan⟩ n 0 ⟨90, -90, 180, -180⟩).1, ?_,
        encodeLoop_length _ n 0 _⟩
      unfold encode
      have h1 : F.ltq .nan (-180) = false := rfl
      have h2 : F.gtq .nan 180 = false := rfl
      have h3 : F.ltq .nan (-90) = false := rfl
      have h4 : F.gtq .nan 90 = false := rfl
      rw [h1, h2, h3, h4]
      simp
    · refine ⟨(encodeLoop ⟨F.nan, F.val qy⟩ n 0 ⟨90, -90, 180, -180⟩).1, ?_,
        encodeLoop_length _ n 0 _⟩
      unfold encode
      have h1 : F.ltq .nan (-180) = false := rfl
      have h2 : F.gtq .nan 180 = false := rfl
      have h3 : F.ltq (.val qy) (-90) = false := by
        simp [F.ltq]
        linarith
      have h4 : F.gtq (.val qy) 90 = false := by
        simp [F.gtq]
        linarith
      rw [h1, h2, h3, h4]
      simp
  · rintro cx n (rfl | ⟨qx, rfl, hx1, hx2⟩)
    · refine ⟨(encodeLoop ⟨F.nan, F.nan⟩ n 0 ⟨90, -90, 180, -180⟩).1, ?_,
        encodeLoop_length _ n 0 _⟩
      unfold encode
      have h1 : F.ltq .nan (-180) = false := rfl
      have h2 : F.gtq .nan 180 = false := rfl
      have h3 : F.ltq .nan (-90) = false := rfl
      have h4 : F.gtq .nan 90 = false := rfl
      rw [h1, h2, h3, h4]
      simp
    · refine ⟨(encodeLoop ⟨F.val qx, F.nan⟩ n 0 ⟨90, -90, 180, -180⟩).1, ?_,
        encodeLoop_length _ n 0 _⟩
      unfold encode
      have h1 : F.ltq (.val qx) (-180) = false := by
        simp [F.ltq]
        linarith
      have h2 : F.gtq (.val qx) 180 = false := by
        simp [F.gtq]
        linarith
      have h3 : F.ltq .nan (-90) = false := rfl
      have h4 : F.gtq .nan 90 = false := rfl
      rw [h1, h2, h3, h4]
      simp
  · intro n
    rw [show encode ⟨F.nan, F.nan⟩ n =
        .ok (encodeLoop ⟨F.nan, F.nan⟩ n 0 ⟨90, -90, 180, -180⟩).1 from rfl,
      encodeLoop_nan n 0 _]
  · intro n
    rw [show encode64 ⟨F.nan, F.nan⟩ n =
        .ok (encodeLoop64 ⟨F.nan, F.nan⟩ n 0 ⟨90, -90, 180, -180⟩).1 from rfl,
      encodeLoop64_nan n 0 _]

/-- Witness for C9: the longitude-bit and success conjuncts applied at the
concrete NaN longitude paired with latitude `45`. -/
theorem C9_nan_encode_witness :
    (encodeBit ⟨.nan, .val 45⟩ 0 ⟨90, -90, 180, -180⟩).1 = 0 ∧
    ∃ out, encode ⟨.nan, .val 45⟩ 3 = .ok out ∧ out.length = 3 :=
  ⟨C9_nan_encode.1 (.val 45) 0 ⟨90, -90, 180, -180⟩ rfl,
   C9_nan_encode.2.2.1 (.val 45) 3 (.inr ⟨45, rfl, by norm_num, by norm_num⟩)⟩

/-- Counterexample to the original C9: a coordinate with a NaN longitude is
not always accepted — paired with the out-of-range latitude `500` the range
check fires on the latitude and `encode` rejects the coordinate. -/
theorem C9_nan_counterexample :
    encode ⟨.nan, .val 500⟩ 5 = .error (.InvalidCoordinateRange ⟨.nan, .val 500⟩) ∧
    encode64 ⟨.nan, .val 500⟩ 5 = .error (.InvalidCoordinateRange ⟨.nan, .val 500⟩) := by
  constructor <;> decide
